import Mathlib

/-!
# Verification of the `Bio.SubsMat` substitution-matrix pipeline

Shallow embedding of `Bio/SubsMat/__init__.py`:

* Python dicts become association lists over decidable keys.  A Python dict
  never holds the same key twice, so the association lists produced by the
  embedding have pairwise-distinct keys; lookup returns the first (hence the
  unique) binding.
* Python floats become elements of a field — `ℚ` in concrete witnesses for
  the exact stages, `ℝ` (with `Real.log`) for the logarithmic stages.
* Python exceptions become `Except SMErr`.  The constructor names follow the
  error taxonomy of the specification (section 7); the comment on each
  constructor records which Python exception it models.
* Python's `for`-loops with dict mutation become (monadic) folds over the
  snapshot of the iterated list, exactly in iteration order.
-/

namespace SubsMat

/-- A dict key of the matrix: a 2-tuple of letters. -/
abbrev Pair := Char × Char

/-- Error values modelling the exceptions raised by the module.
* `invalidMatrix`: the `assert len(self) == N**2 or len(self) == N*(N+1)/2`
  size check in `SeqMat.__init__` (spec: `InvalidMatrixError`);
* `keyError`: Python `KeyError` on a missing dict key;
* `alphabetMismatch`: the `ValueError` raised by `_build_subs_mat` (spec:
  `AlphabetMismatchError`);
* `zeroDivision`: Python `ZeroDivisionError` from `/` (spec:
  `DegenerateInputError` when the total of an accepted-replacement matrix
  is zero);
* `domainError`: the `ValueError` raised by `math.log` on a non-positive
  argument (spec: `DomainError`);
* `unsupportedOperation`: the `TypeError` raised by `SeqMat.entropy` on a
  matrix of the wrong kind (spec: `UnsupportedOperationError`). -/
inductive SMErr where
  | invalidMatrix
  | keyError
  | alphabetMismatch
  | zeroDivision
  | domainError
  | unsupportedOperation
  deriving DecidableEq, Repr

/-- `NOTYPE = 0` in the source. -/
def NOTYPE : Nat := 0
/-- `ACCREP = 1` in the source. -/
def ACCREP : Nat := 1
/-- `OBSFREQ = 2` in the source. -/
def OBSFREQ : Nat := 2
/-- `SUBS = 3` in the source. -/
def SUBS : Nat := 3
/-- `EXPFREQ = 4` in the source. -/
def EXPFREQ : Nat := 4
/-- `LO = 5` in the source. -/
def LO : Nat := 5

section DictOps

variable {κ : Type} {V : Type} [DecidableEq κ]

/-- `d[k]` on a Python dict modelled as an association list: the value of the
first (unique) binding of `k`, if any. -/
def lookupK (d : List (κ × V)) (k : κ) : Option V :=
  (d.find? (fun e => decide (e.1 = k))).map (fun e => e.2)

/-- `d[k] = v`: overwrite the binding of `k` in place when present, append a
new binding otherwise (Python dicts keep insertion order). -/
def setK (d : List (κ × V)) (k : κ) (v : V) : List (κ × V) :=
  if d.any (fun e => decide (e.1 = k)) then
    d.map (fun e => if e.1 = k then (k, v) else e)
  else d ++ [(k, v)]

/-- `del d[k]`. -/
def eraseK (d : List (κ × V)) (k : κ) : List (κ × V) :=
  d.filter (fun e => decide (e.1 ≠ k))

/-- `d.keys()`, in iteration order. -/
def keysOf (d : List (κ × V)) : List κ := d.map Prod.fst

/-- A dict lookup whose failure (Python `KeyError`) is propagated. -/
def lookupExc (d : List (κ × V)) (k : κ) : Except SMErr V :=
  match lookupK d k with
  | some v => .ok v
  | none => .error .keyError

/-- `d[k] += v` (read, add, write back): raises `KeyError` when `k` is absent. -/
def addAt [Add V] (d : List (κ × V)) (k : κ) (v : V) : Except SMErr (List (κ × V)) :=
  match lookupK d k with
  | some w => .ok (setK d k (w + v))
  | none => .error .keyError

end DictOps

/-- Python float division `a / b`: raises `ZeroDivisionError` on `b == 0`. -/
def pyDiv {V : Type} [Field V] [DecidableEq V] (a b : V) : Except SMErr V :=
  if b = 0 then .error .zeroDivision else .ok (a / b)

/-- `math.log`: raises `ValueError` (`domainError`) on a non-positive
argument, idealising floats as reals. -/
noncomputable def pyLog (x : ℝ) : Except SMErr ℝ :=
  if x ≤ 0 then .error .domainError else .ok (Real.log x)

/-- The integer nearest to `y`, rounding half away from zero, as Python 2's
`round` does. -/
noncomputable def roundHalfAway (y : ℝ) : ℤ :=
  if 0 ≤ y then ⌊y + 1 / 2⌋ else -⌊-y + 1 / 2⌋

/-- Python `round(x, n)`: round to `n` decimal digits, half away from zero. -/
noncomputable def pyRound (x : ℝ) (n : ℤ) : ℝ :=
  (roundHalfAway (x * 10 ^ n) : ℝ) / 10 ^ n

/-- `letters_list.sort()`: Python sorts characters by code point, i.e. by the
linear order on `Char`. -/
def pySorted (l : List Char) : List Char :=
  l.mergeSort (fun a b => decide (a ≤ b))

/-- The list of keys `(j, i)` visited by the nested loops
`for i in self.ab_list: for j in self.ab_list[:self.ab_list.index(i)+1]:`
shared by `SeqMat._init_zero` and `SeqMat._full_to_half`. -/
def pairsList (ab : List Char) : List Pair :=
  ab.flatMap (fun i => (ab.take (List.indexOf i ab + 1)).map (fun j => (j, i)))

/-- `SeqMat._alphabet_from_matrix`: the sorted list of the distinct letters
occurring in the keys of the matrix. -/
def alphabetFromMatrix {V : Type} (d : List (Pair × V)) : List Char :=
  pySorted ((d.flatMap (fun e => [e.1.1, e.1.2])).dedup)

/-- The `SeqMat` class: the dict contents (`self.data`), the alphabet letters
(`self.alphabet.letters`), the sorted letter list (`self.ab_list`) and the
matrix-kind tag (`self.mat_type`). -/
structure SeqMat (V : Type) where
  data : List (Pair × V)
  letters : List Char
  ab_list : List Char
  mat_type : Nat

/-- `SeqMat._init_zero`: write a zero into every half-matrix cell of the
alphabet, in loop order. -/
def initZero {V : Type} [Zero V] (d : List (Pair × V)) (ab : List Char) :
    List (Pair × V) :=
  (pairsList ab).foldl (fun d k => setK d k 0) d

/-- One iteration of the `_full_to_half` loop at key `(j, i)` (the argument
`p`): `if i <> j: self[j,i] = self[j,i] + self[i,j]; del self[i,j]`.
Both dict reads may raise `KeyError`. -/
def foldPairStep {V : Type} [Add V] (d : List (Pair × V)) (p : Pair) :
    Except SMErr (List (Pair × V)) :=
  if p.1 = p.2 then .ok d
  else
    match lookupK d p, lookupK d (p.2, p.1) with
    | some vji, some vij => .ok (eraseK (setK d p (vji + vij)) (p.2, p.1))
    | _, _ => .error .keyError

/-- `SeqMat._full_to_half` on the dict contents: do nothing when the dict
already has half size `N*(N+1)/2` (with `N = len(self.alphabet.letters)`),
otherwise run the folding loop over `pairsList ab`. -/
def fullToHalfData {V : Type} [Add V] (d : List (Pair × V))
    (letters ab : List Char) : Except SMErr (List (Pair × V)) :=
  if d.length = letters.length * (letters.length + 1) / 2 then .ok d
  else (pairsList ab).foldlM foldPairStep d

/-- `SeqMat.__init__` with `build_later=1` and `data=None`, as used by the
pipeline stages: resolve the alphabet (inferring it from the empty dict when
no letters are given), sort it into `ab_list`, skip the size check, and
zero-initialise every half-matrix cell. -/
def seqMatZero (V : Type) [Zero V] (letters : List Char)
    (mat_type : Nat := NOTYPE) : SeqMat V :=
  let lets := if letters.isEmpty then alphabetFromMatrix ([] : List (Pair × V))
              else letters
  let ab := pySorted lets
  { data := initZero [] ab, letters := lets, ab_list := ab,
    mat_type := mat_type }

/-- `SeqMat.__init__` with `build_later=0` (the default): copy the data,
resolve the alphabet (inferring it from the keys when no letters are given),
assert the size is full (`N*N`) or half (`N*(N+1)/2`), sort the letters into
`ab_list`, and convert full to half. -/
def seqMatOfData {V : Type} [Add V] (data : List (Pair × V))
    (alphabet : List Char := []) (mat_type : Nat := NOTYPE) :
    Except SMErr (SeqMat V) :=
  let lets := if alphabet.isEmpty then alphabetFromMatrix data else alphabet
  let N := lets.length
  if data.length = N * N ∨ data.length = N * (N + 1) / 2 then
    let ab := pySorted lets
    (fullToHalfData data lets ab).map
      (fun d => { data := d, letters := lets, ab_list := ab,
                  mat_type := mat_type })
  else .error .invalidMatrix

/-- The cell lookup performed by `SeqMat.print_mat` for row `i`, column `j`:
`try: val = self[j,i] except KeyError: val = self[i,j]`. -/
def getSym {V : Type} (m : SeqMat V) (j i : Char) : Option V :=
  match lookupK m.data (j, i) with
  | some v => some v
  | none => lookupK m.data (i, j)

/-- The accumulation `sum = 0.; for i in d.values(): sum += i`. -/
def sumValues {V : Type} [Add V] [Zero V] (d : List (Pair × V)) : V :=
  d.foldl (fun s e => s + e.2) 0

/-- The Python pattern `for e in es: d[key e] = F e` where evaluating `F`
may raise: a monadic fold storing each result under its key. -/
def storeLoop {α V : Type} (key : α → Pair) (F : α → Except SMErr V)
    (d0 : List (Pair × V)) (es : List α) : Except SMErr (List (Pair × V)) :=
  es.foldlM (fun d e => do
    let v ← F e
    pure (setK d (key e) v)) d0

/-- `_build_obs_freq_mat`: total up all values, create a zeroed half matrix
over the same alphabet, store `acc_rep_mat[i]/sum` for every key `i` of the
input (each division raising `ZeroDivisionError` when the total is zero),
and tag the result `OBSFREQ`. -/
def buildObsFreqMat {V : Type} [Field V] [DecidableEq V]
    (acc_rep_mat : SeqMat V) : Except SMErr (SeqMat V) := do
  let s := sumValues acc_rep_mat.data
  let obs0 := seqMatZero V acc_rep_mat.letters
  let d ← storeLoop Prod.fst (fun e => pyDiv e.2 s) obs0.data acc_rep_mat.data
  return { obs0 with data := d, mat_type := OBSFREQ }

/-- Modelled from the spec: `Bio.SubsMat.FreqTable` is not under `src/`.
Per spec sections 3 and 6 a frequency table is a mapping from alphabet
symbols to frequencies exposing an associated alphabet; its alphabet is the
(sorted, distinct) list of symbols of the mapping. -/
structure FreqTable (V : Type) where
  data : List (Char × V)
  letters : List Char

/-- Modelled from the spec: build a `FreqTable` from a symbol-to-frequency
dict, deriving the associated alphabet from the dict keys. -/
def mkFreqTable {V : Type} (d : List (Char × V)) : FreqTable V :=
  { data := d, letters := pySorted ((d.map Prod.fst).dedup) }

/-- `_exp_freq_table_from_obs_freq`: start every letter at `0.`, then for
each key of the observed-frequency matrix add the whole value to its letter
when diagonal, else add half of the value to each of its two letters
(the divisor `2.` is a nonzero literal, so this division cannot raise). -/
def expFreqTableFromObsFreq {V : Type} [Field V] (obs_freq_mat : SeqMat V) :
    Except SMErr (FreqTable V) := do
  let t0 := obs_freq_mat.letters.foldl
    (fun t c => setK t c (0 : V)) ([] : List (Char × V))
  let t ← obs_freq_mat.data.foldlM (fun t e =>
    if e.1.1 = e.1.2 then addAt t e.1.1 e.2
    else do
      let t1 ← addAt t e.1.1 (e.2 / 2)
      addAt t1 e.1.2 (e.2 / 2)) t0
  return mkFreqTable t

/-- `_build_exp_freq_mat`: zero-construct a half matrix over the table's
alphabet, then store `t[a]**2` in each diagonal cell `(a,a)` and
`2.0*t[a]*t[b]` in each off-diagonal cell `(a,b)`, tagging it `EXPFREQ`.
Each table lookup may raise `KeyError`. -/
def buildExpFreqMat {V : Type} [Field V] (exp_freq_table : FreqTable V) :
    Except SMErr (SeqMat V) := do
  let m0 := seqMatZero V exp_freq_table.letters
  let d ← storeLoop id
    (fun k =>
      if k.1 = k.2 then do
        let v ← lookupExc exp_freq_table.data k.1
        pure (v ^ 2)
      else do
        let v1 ← lookupExc exp_freq_table.data k.1
        let v2 ← lookupExc exp_freq_table.data k.2
        pure (2 * v1 * v2))
    m0.data (keysOf m0.data)
  return { m0 with data := d, mat_type := EXPFREQ }

/-- `_build_subs_mat`: raise `ValueError` (`alphabetMismatch`) when the two
`ab_list`s differ as lists; otherwise copy-construct `SeqMat(obs_freq_mat)`
(alphabet re-inferred from the keys), store `obs[i]/exp[i]` for every key
`i` of the observed matrix, and tag the result `SUBS`. -/
def buildSubsMat {V : Type} [Field V] [DecidableEq V]
    (obs_freq_mat exp_freq_mat : SeqMat V) : Except SMErr (SeqMat V) := do
  if obs_freq_mat.ab_list ≠ exp_freq_mat.ab_list then
    .error .alphabetMismatch
  else do
    let subs0 ← seqMatOfData obs_freq_mat.data
    let d ← storeLoop Prod.fst
      (fun e => do
        let ev ← lookupExc exp_freq_mat.data e.1
        pyDiv e.2 ev) subs0.data obs_freq_mat.data
    return { subs0 with data := d, mat_type := SUBS }

/-- `_build_log_odds_mat`: copy-construct `SeqMat(subs_mat)`, store
`round(factor*log(subs_mat[i])/log(logbase), round_digit)` for every key
`i`, and tag the result `LO`.  Defaults as in the source:
`logbase=10, factor=10.0, round_digit=0`. -/
noncomputable def buildLogOddsMat (subs_mat : SeqMat ℝ) (logbase : ℝ := 10)
    (factor : ℝ := 10.0) (round_digit : ℤ := 0) : Except SMErr (SeqMat ℝ) := do
  let lo0 ← seqMatOfData subs_mat.data
  let d ← storeLoop Prod.fst
    (fun e => do
      let lg ← pyLog e.2
      let lb ← pyLog logbase
      let q ← pyDiv (factor * lg) lb
      pure (pyRound q round_digit)) lo0.data subs_mat.data
  return { lo0 with data := d, mat_type := LO }

/-- `SeqMat.entropy`: for a `LO` matrix sum `obs[i]*self[i]/log(2)` over the
matrix's own keys; for a `SUBS` matrix sum `obs[i]*log(self[i])/log(2)`;
raise `TypeError` (`unsupportedOperation`) on any other kind.  The divisor
`log(2)` is a nonzero constant, so that division cannot raise. -/
noncomputable def entropy (self obs_freq_mat : SeqMat ℝ) : Except SMErr ℝ :=
  if self.mat_type = LO then
    self.data.foldlM (fun ent e => do
      let ov ← lookupExc obs_freq_mat.data e.1
      pure (ent + ov * e.2 / Real.log 2)) (0 : ℝ)
  else if self.mat_type = SUBS then
    self.data.foldlM (fun ent e => do
      let ov ← lookupExc obs_freq_mat.data e.1
      let lg ← pyLog e.2
      pure (ent + ov * lg / Real.log 2)) (0 : ℝ)
  else .error .unsupportedOperation

/-- `make_log_odds_matrix`: observed frequencies, then — when the passed
expected-frequency table is falsy (`None` or an empty table, Python's
`if not exp_freq_table:`) — derive the table from the observed matrix;
expected matrix; substitution matrix; log-odds matrix. -/
noncomputable def make_log_odds_matrix (acc_rep_mat : SeqMat ℝ)
    (exp_freq_table : Option (FreqTable ℝ) := none) (logbase : ℝ := 10)
    (factor : ℝ := 10.0) (round_digit : ℤ := 0) : Except SMErr (SeqMat ℝ) := do
  let obs_freq_mat ← buildObsFreqMat acc_rep_mat
  let eft ← match exp_freq_table with
    | none => expFreqTableFromObsFreq obs_freq_mat
    | some t =>
        if t.data.isEmpty then expFreqTableFromObsFreq obs_freq_mat
        else .ok t
  let exp_freq_mat ← buildExpFreqMat eft
  let subs_mat ← buildSubsMat obs_freq_mat exp_freq_mat
  buildLogOddsMat subs_mat logbase factor round_digit

/-- The canonical state of a `SeqMat` dict: distinct alphabet letters, the
sorted `ab_list`, and exactly the sorted key pairs over the alphabet (in some
order).  Construction and every pipeline stage establish this. -/
def HalfWF {V : Type} (m : SeqMat V) : Prop :=
  m.letters.Nodup ∧ m.ab_list.Sorted (· < ·) ∧ m.ab_list.Perm m.letters ∧
    (keysOf m.data).Perm (pairsList m.ab_list)

/-- The half-matrix key invariant in the words of the claims: every key is a
sorted pair over the alphabet, each unordered pair of letters is backed by
exactly one physical cell, and there are `N*(N+1)/2` cells. -/
def CanonKeys {V : Type} (m : SeqMat V) : Prop :=
  (∀ k ∈ keysOf m.data, k.1 ≤ k.2 ∧ k.1 ∈ m.letters ∧ k.2 ∈ m.letters) ∧
  (∀ a ∈ m.letters, ∀ b ∈ m.letters,
    (keysOf m.data).countP (fun k => decide (k = (a, b) ∨ k = (b, a))) = 1) ∧
  m.data.length = m.letters.length * (m.letters.length + 1) / 2

/-- The mirror of a key. -/
def swapP (p : Pair) : Pair := (p.2, p.1)

/-- The off-diagonal keys among the loop keys `R`. -/
def offdiagKeys (R : List Pair) : List Pair :=
  R.filter (fun p => decide (p.1 ≠ p.2))

/-- The mirror keys deleted by the folding loop over `R`. -/
def revKeys (R : List Pair) : List Pair := (offdiagKeys R).map swapP

/-- All ordered pairs over the alphabet: the key set of a full matrix. -/
def allPairsL (letters : List Char) : List Pair :=
  letters.flatMap (fun a => letters.map (fun b => (a, b)))

/-- A full matrix over the alphabet: every ordered pair of letters is a key,
keys only use alphabet letters, and (as in any dict) keys are distinct. -/
def FullData {V : Type} (d : List (Pair × V)) (letters : List Char) : Prop :=
  (keysOf d).Nodup ∧
  (∀ a ∈ letters, ∀ b ∈ letters, (a, b) ∈ keysOf d) ∧
  (∀ k ∈ keysOf d, k.1 ∈ letters ∧ k.2 ∈ letters)

/-! ## Concrete instances used by the claim witnesses -/

/-- An accepted-replacement matrix with a single zero count (C5 witness). -/
def armZ : SeqMat ℚ :=
  { data := [(('A', 'A'), 0)], letters := ['A'], ab_list := ['A'],
    mat_type := ACCREP }

/-- The empty accepted-replacement matrix, as built by `SeqMat()`
(C5 counterexample). -/
def emptyArm : SeqMat ℚ :=
  { data := [], letters := [], ab_list := [], mat_type := ACCREP }

/-- A well-formed half matrix over `{A, C}` (C2 witness). -/
def mC2 : SeqMat ℚ :=
  { data := [(('A', 'A'), 1), (('A', 'C'), 2), (('C', 'C'), 3)],
    letters := ['A', 'C'], ab_list := ['A', 'C'], mat_type := NOTYPE }

/-- A half-sized dict (C3 witness, no-op part). -/
def dHalfW : List (Pair × ℚ) := [(('A', 'A'), 1), (('A', 'C'), 2), (('C', 'C'), 3)]

/-- A full dict over `{A, C}` (C3 witness, folding part). -/
def dFullW : List (Pair × ℚ) :=
  [(('A', 'A'), 1), (('A', 'C'), 2), (('C', 'A'), 3), (('C', 'C'), 4)]

/-- An observed-frequency matrix over `{A, C}` (C7 witness). -/
def oW : SeqMat ℚ :=
  { data := [(('A', 'A'), 1/4), (('A', 'C'), 1/2), (('C', 'C'), 1/4)],
    letters := ['A', 'C'], ab_list := ['A', 'C'], mat_type := OBSFREQ }

/-- An expected-frequency matrix over `{A, C}` (C7 witness). -/
def emW : SeqMat ℚ :=
  { data := [(('A', 'A'), 1/4), (('A', 'C'), 1/2), (('C', 'C'), 1/4)],
    letters := ['A', 'C'], ab_list := ['A', 'C'], mat_type := EXPFREQ }

/-- An expected-frequency matrix over `{A, C, G}` (C7 mismatch witness). -/
def emW3 : SeqMat ℚ :=
  { data := [], letters := ['A', 'C', 'G'], ab_list := ['A', 'C', 'G'],
    mat_type := EXPFREQ }

/-- An `OBSFREQ`-kind matrix (C8 witness). -/
def selfOF : SeqMat ℝ :=
  { data := [], letters := [], ab_list := [], mat_type := OBSFREQ }

/-- A placeholder companion matrix (C8 witness). -/
def obsDummy : SeqMat ℝ :=
  { data := [], letters := [], ab_list := [], mat_type := NOTYPE }

/-- The input matrix of the spec's end-to-end example, over `ℚ`
(C4 witness). -/
def armWQ : SeqMat ℚ :=
  { data := [(('A', 'A'), 10), (('A', 'C'), 20), (('C', 'C'), 10)],
    letters := ['A', 'C'], ab_list := ['A', 'C'], mat_type := ACCREP }

/-- A one-cell substitution-ratio matrix over `ℝ` (C6 witness). -/
def subsW : SeqMat ℝ :=
  { data := [(('A', 'A'), 1)], letters := ['A'], ab_list := ['A'],
    mat_type := SUBS }

/-- The empty frequency table over `ℚ` (C9 witness). -/
def ftEmpty : FreqTable ℚ := { data := [], letters := [] }

/-- The empty observed-frequency matrix over `ℚ` (C9 witness). -/
def obsEmpty : SeqMat ℚ :=
  { data := [], letters := [], ab_list := [], mat_type := OBSFREQ }

/-- The empty substitution matrix over `ℝ` (C9 witness). -/
def subsEmptyR : SeqMat ℝ :=
  { data := [], letters := [], ab_list := [], mat_type := SUBS }

/-- The end-to-end example input: accepted replacements `{A,A}:10`,
`{A,C}:20`, `{C,C}:10` over alphabet `{A,C}`. -/
noncomputable def armC1 : SeqMat ℝ :=
  { data := [(('A', 'A'), 10), (('A', 'C'), 20), (('C', 'C'), 10)],
    letters := ['A', 'C'], ab_list := ['A', 'C'], mat_type := ACCREP }

/-- Observed frequencies of the end-to-end example. -/
noncomputable def obsC1 : SeqMat ℝ :=
  { data := [(('A', 'A'), 1 / 4), (('A', 'C'), 1 / 2), (('C', 'C'), 1 / 4)],
    letters := ['A', 'C'], ab_list := ['A', 'C'], mat_type := OBSFREQ }

/-- Expected single-letter frequencies of the end-to-end example. -/
noncomputable def ftC1 : FreqTable ℝ :=
  { data := [('A', 1 / 2), ('C', 1 / 2)], letters := ['A', 'C'] }

/-- Expected pair frequencies of the end-to-end example. -/
noncomputable def expC1 : SeqMat ℝ :=
  { data := [(('A', 'A'), 1 / 4), (('A', 'C'), 1 / 2), (('C', 'C'), 1 / 4)],
    letters := ['A', 'C'], ab_list := ['A', 'C'], mat_type := EXPFREQ }

/-- Substitution ratios of the end-to-end example: all ones. -/
def subsC1 : SeqMat ℝ :=
  { data := [(('A', 'A'), 1), (('A', 'C'), 1), (('C', 'C'), 1)],
    letters := ['A', 'C'], ab_list := ['A', 'C'], mat_type := SUBS }

/-- Log-odds matrix of the end-to-end example: all zeros. -/
def loC1 : SeqMat ℝ :=
  { data := [(('A', 'A'), 0), (('A', 'C'), 0), (('C', 'C'), 0)],
    letters := ['A', 'C'], ab_list := ['A', 'C'], mat_type := LO }

/-! ## Association-list (dict) lemmas -/

section DictLemmas

variable {κ V : Type} [DecidableEq κ]

theorem lookupK_nil (k : κ) : lookupK ([] : List (κ × V)) k = none := rfl

theorem lookupK_cons (e : κ × V) (d : List (κ × V)) (k : κ) :
    lookupK (e :: d) k = if e.1 = k then some e.2 else lookupK d k := by
  by_cases h : e.1 = k
  · simp [lookupK, List.find?_cons_of_pos, h]
  · simp [lookupK, List.find?_cons_of_neg, h]

theorem any_key_iff (d : List (κ × V)) (k : κ) :
    (d.any (fun e => decide (e.1 = k)) = true) ↔ k ∈ keysOf d := by
  rw [List.any_eq_true]
  simp only [decide_eq_true_eq, keysOf, List.mem_map]

theorem setK_eq_mem {d : List (κ × V)} {k : κ} (v : V) (h : k ∈ keysOf d) :
    setK d k v = d.map (fun e => if e.1 = k then (k, v) else e) := by
  unfold setK
  rw [if_pos ((any_key_iff d k).mpr h)]

theorem setK_eq_not_mem {d : List (κ × V)} {k : κ} (v : V) (h : k ∉ keysOf d) :
    setK d k v = d ++ [(k, v)] := by
  unfold setK
  rw [if_neg (fun hc => h ((any_key_iff d k).mp hc))]

theorem lookupK_isSome_iff (d : List (κ × V)) (k : κ) :
    (lookupK d k).isSome = true ↔ k ∈ keysOf d := by
  induction d with
  | nil => simp [lookupK_nil, keysOf]
  | cons e d ih =>
      rw [lookupK_cons]
      by_cases h : e.1 = k
      · simp [h, keysOf]
      · simp only [if_neg h, keysOf, List.map_cons, List.mem_cons]
        rw [ih]
        simp only [keysOf]
        constructor
        · exact fun hm => Or.inr hm
        · rintro (hm | hm)
          · exact absurd hm.symm h
          · exact hm

theorem lookupK_eq_none_iff (d : List (κ × V)) (k : κ) :
    lookupK d k = none ↔ k ∉ keysOf d := by
  constructor
  · intro h hm
    have := (lookupK_isSome_iff d k).mpr hm
    rw [h] at this
    simp at this
  · intro hm
    cases hc : lookupK d k with
    | none => rfl
    | some v =>
        exact absurd ((lookupK_isSome_iff d k).mp (by simp [hc])) hm

theorem lookupK_mem {d : List (κ × V)} {k : κ} {v : V}
    (h : lookupK d k = some v) : (k, v) ∈ d := by
  induction d with
  | nil => simp [lookupK_nil] at h
  | cons e d ih =>
      rw [lookupK_cons] at h
      by_cases he : e.1 = k
      · rw [if_pos he] at h
        have hv : e.2 = v := by injection h
        subst hv
        subst he
        exact List.mem_cons_self e d
      · rw [if_neg he] at h
        exact List.mem_cons_of_mem _ (ih h)

theorem lookupK_of_mem {d : List (κ × V)} {k : κ} {v : V}
    (hn : (keysOf d).Nodup) (h : (k, v) ∈ d) : lookupK d k = some v := by
  induction d with
  | nil => simp at h
  | cons e d ih =>
      rw [lookupK_cons]
      simp only [keysOf, List.map_cons, List.nodup_cons] at hn
      rcases List.mem_cons.mp h with h1 | h1
      · subst h1; simp
      · have hk : k ∈ keysOf d := List.mem_map_of_mem Prod.fst h1
        have he : e.1 ≠ k := fun hc => hn.1 (hc ▸ hk)
        rw [if_neg he]
        exact ih hn.2 h1

theorem lookupK_append_left {d d' : List (κ × V)} {k : κ} {v : V}
    (h : lookupK d k = some v) : lookupK (d ++ d') k = some v := by
  induction d with
  | nil => simp [lookupK_nil] at h
  | cons e d ih =>
      rw [lookupK_cons] at h
      rw [List.cons_append, lookupK_cons]
      by_cases he : e.1 = k
      · rwa [if_pos he] at h ⊢
      · rw [if_neg he] at h ⊢
        exact ih h

theorem lookupK_append_right {d d' : List (κ × V)} {k : κ}
    (h : k ∉ keysOf d) : lookupK (d ++ d') k = lookupK d' k := by
  induction d with
  | nil => simp
  | cons e d ih =>
      simp only [keysOf, List.map_cons, List.mem_cons, not_or] at h
      rw [List.cons_append, lookupK_cons, if_neg (fun hc => h.1 hc.symm)]
      exact ih (by simpa [keysOf] using h.2)

theorem lookupK_mapUpdate_self {d : List (κ × V)} {k : κ} (v : V)
    (h : k ∈ keysOf d) :
    lookupK (d.map (fun e => if e.1 = k then (k, v) else e)) k = some v := by
  induction d with
  | nil => simp [keysOf] at h
  | cons e d ih =>
      by_cases he : e.1 = k
      · simp [lookupK_cons, he]
      · rw [List.map_cons, if_neg he, lookupK_cons, if_neg he]
        simp only [keysOf, List.map_cons, List.mem_cons] at h
        rcases h with h1 | h1
        · exact absurd h1.symm he
        · exact ih (by simpa [keysOf] using h1)

theorem lookupK_mapUpdate_ne {d : List (κ × V)} {k k' : κ} (v : V)
    (h : k' ≠ k) :
    lookupK (d.map (fun e => if e.1 = k then (k, v) else e)) k' =
      lookupK d k' := by
  induction d with
  | nil => rfl
  | cons e d ih =>
      by_cases he : e.1 = k
      · rw [List.map_cons, if_pos he, lookupK_cons, lookupK_cons,
          if_neg (fun hc : k = k' => h hc.symm),
          if_neg (fun hc : e.1 = k' => h (he ▸ hc).symm)]
        exact ih
      · rw [List.map_cons, if_neg he, lookupK_cons, lookupK_cons]
        by_cases he' : e.1 = k'
        · rw [if_pos he', if_pos he']
        · rw [if_neg he', if_neg he']
          exact ih

theorem lookupK_setK_self (d : List (κ × V)) (k : κ) (v : V) :
    lookupK (setK d k v) k = some v := by
  by_cases h : k ∈ keysOf d
  · rw [setK_eq_mem v h]
    exact lookupK_mapUpdate_self v h
  · rw [setK_eq_not_mem v h, lookupK_append_right h, lookupK_cons, if_pos rfl]

theorem lookupK_setK_ne (d : List (κ × V)) (k k' : κ) (v : V) (h : k' ≠ k) :
    lookupK (setK d k v) k' = lookupK d k' := by
  by_cases hm : k ∈ keysOf d
  · rw [setK_eq_mem v hm]
    exact lookupK_mapUpdate_ne v h
  · rw [setK_eq_not_mem v hm]
    cases hc : lookupK d k'
    · rw [lookupK_append_right (by rwa [← lookupK_eq_none_iff]), lookupK_cons,
        if_neg (fun hx : k = k' => h hx.symm), lookupK_nil]
    · exact lookupK_append_left hc

theorem keysOf_setK (d : List (κ × V)) (k : κ) (v : V) :
    keysOf (setK d k v) =
      if k ∈ keysOf d then keysOf d else keysOf d ++ [k] := by
  by_cases h : k ∈ keysOf d
  · rw [setK_eq_mem v h, if_pos h]
    simp only [keysOf, List.map_map]
    apply List.map_congr_left
    intro e _
    by_cases hek : e.1 = k <;> simp [hek]
  · rw [setK_eq_not_mem v h, if_neg h]
    simp [keysOf]

theorem keysOf_eraseK (d : List (κ × V)) (k : κ) :
    keysOf (eraseK d k) = (keysOf d).filter (fun x => decide (x ≠ k)) := by
  induction d with
  | nil => rfl
  | cons e d ih =>
      simp only [eraseK, keysOf] at ih ⊢
      rw [List.filter_cons, List.map_cons, List.filter_cons]
      by_cases h : e.1 = k
      · rw [if_neg (by simp [h]), if_neg (by simp [h])]
        exact ih
      · rw [if_pos (by simpa using h), if_pos (by simpa using h)]
        rw [List.map_cons]
        congr 1

theorem lookupK_eraseK_self (d : List (κ × V)) (k : κ) :
    lookupK (eraseK d k) k = none := by
  rw [lookupK_eq_none_iff, keysOf_eraseK]
  simp

theorem lookupK_eraseK_ne (d : List (κ × V)) (k k' : κ) (h : k' ≠ k) :
    lookupK (eraseK d k) k' = lookupK d k' := by
  induction d with
  | nil => rfl
  | cons e d ih =>
      by_cases h2 : e.1 = k
      · rw [eraseK, List.filter_cons, if_neg (by simp [h2]), lookupK_cons,
          if_neg (fun hc : e.1 = k' => h (h2 ▸ hc).symm)]
        exact ih
      · rw [eraseK, List.filter_cons, if_pos (by simpa using h2), lookupK_cons,
          lookupK_cons]
        by_cases h3 : e.1 = k'
        · rw [if_pos h3, if_pos h3]
        · rw [if_neg h3, if_neg h3]
          exact ih

theorem eraseK_of_not_mem {d : List (κ × V)} {k : κ} (h : k ∉ keysOf d) :
    eraseK d k = d := by
  induction d with
  | nil => rfl
  | cons e d ih =>
      simp only [keysOf, List.map_cons, List.mem_cons, not_or] at h
      rw [eraseK, List.filter_cons, if_pos (by simpa using fun hc : e.1 = k => h.1 hc.symm)]
      congr 1
      exact ih (by simpa [keysOf] using h.2)

theorem length_eraseK_of_mem {d : List (κ × V)} {k : κ}
    (hn : (keysOf d).Nodup) (h : k ∈ keysOf d) :
    (eraseK d k).length + 1 = d.length := by
  induction d with
  | nil => simp [keysOf] at h
  | cons e d ih =>
      simp only [keysOf, List.map_cons, List.nodup_cons] at hn
      have hmem : k = e.1 ∨ k ∈ keysOf d := by simpa [keysOf] using h
      rcases hmem with h1 | h1
      · subst h1
        have hnm : e.1 ∉ keysOf d := hn.1
        rw [eraseK, List.filter_cons, if_neg (by simp)]
        have he : d.filter (fun x => decide (x.1 ≠ e.1)) = d :=
          eraseK_of_not_mem hnm
        rw [he, List.length_cons]
      · have he : e.1 ≠ k := fun hc => hn.1 (hc ▸ h1)
        rw [eraseK, List.filter_cons, if_pos (by simpa using he)]
        have := ih hn.2 h1
        rw [eraseK] at this
        simp only [List.length_cons]
        omega

theorem assoc_perm_cons_eraseK {d : List (κ × V)} {k : κ} {v : V}
    (hn : (keysOf d).Nodup) (h : (k, v) ∈ d) :
    d.Perm ((k, v) :: eraseK d k) := by
  induction d with
  | nil => simp at h
  | cons e d ih =>
      simp only [keysOf, List.map_cons, List.nodup_cons] at hn
      rcases List.mem_cons.mp h with h1 | h1
      · rw [← h1]
        rw [← h1] at hn
        rw [eraseK, List.filter_cons, if_neg (by simp)]
        have : d.filter (fun e => decide (e.1 ≠ k)) = d :=
          eraseK_of_not_mem hn.1
        rw [this]
      · have he : e.1 ≠ k := fun hc =>
          hn.1 (hc ▸ List.mem_map_of_mem Prod.fst h1)
        rw [eraseK, List.filter_cons, if_pos (by simpa using he)]
        refine List.Perm.trans ((ih hn.2 h1).cons e) ?_
        exact List.Perm.swap (k, v) e (eraseK d k)

/-- Two dicts with distinct keys and the same lookup function have the same
bindings (up to order). -/
theorem assoc_ext_perm {d₁ d₂ : List (κ × V)} (h₁ : (keysOf d₁).Nodup)
    (h₂ : (keysOf d₂).Nodup) (h : ∀ k, lookupK d₁ k = lookupK d₂ k) :
    d₁.Perm d₂ := by
  induction d₁ generalizing d₂ with
  | nil =>
      cases d₂ with
      | nil => exact List.Perm.refl _
      | cons e d₂ =>
          have := h e.1
          rw [lookupK_nil, lookupK_cons] at this
          simp at this
  | cons e d₁ ih =>
      have he : lookupK d₂ e.1 = some e.2 := by
        rw [← h e.1, lookupK_cons, if_pos rfl]
      have hmem : (e.1, e.2) ∈ d₂ := lookupK_mem he
      have hperm : d₂.Perm ((e.1, e.2) :: eraseK d₂ e.1) :=
        assoc_perm_cons_eraseK h₂ hmem
      simp only [keysOf, List.map_cons, List.nodup_cons] at h₁
      have hih : d₁.Perm (eraseK d₂ e.1) := by
        apply ih h₁.2
        · rw [keysOf_eraseK]
          exact (List.filter_sublist _).nodup h₂
        · intro k
          by_cases hk : k = e.1
          · subst hk
            rw [lookupK_eraseK_self, lookupK_eq_none_iff]
            exact h₁.1
          · rw [lookupK_eraseK_ne _ _ _ hk, ← h k, lookupK_cons,
              if_neg (fun hc => hk hc.symm)]
      exact List.Perm.trans (hih.cons e) hperm.symm

theorem lookupK_map_val {α : Type} (d : List (κ × V)) (f : κ × V → α)
    (k : κ) :
    lookupK (d.map (fun e => (e.1, f e))) k =
      (d.find? (fun e => decide (e.1 = k))).map f := by
  induction d with
  | nil => rfl
  | cons e d ih =>
      by_cases h : e.1 = k
      · rw [List.map_cons, lookupK_cons,
          List.find?_cons_of_pos _ (by simpa using h)]
        simp [h]
      · rw [List.map_cons, lookupK_cons,
          List.find?_cons_of_neg _ (by simpa using h)]
        simpa [h] using ih

theorem sumValues_eq {W : Type} [AddCommMonoid W] (d : List (Pair × W)) :
    (d.foldl (fun s e => s + e.2) 0) = (d.map (fun e => e.2)).sum := by
  suffices h : ∀ (s : W),
      d.foldl (fun s e => s + e.2) s = s + (d.map (fun e => e.2)).sum by
    simpa using h 0
  induction d with
  | nil => simp
  | cons e d ih => intro s; simp [ih, add_assoc]


end DictLemmas

/-! ## Sorting and canonical key-pair lemmas -/

theorem pySorted_perm (l : List Char) : (pySorted l).Perm l :=
  List.mergeSort_perm l _

theorem pySorted_sorted (l : List Char) : (pySorted l).Sorted (· ≤ ·) := by
  have := @List.sorted_mergeSort Char (fun a b : Char => decide (a ≤ b))
    (fun a b c hab hbc => by
      simp only [decide_eq_true_eq] at *
      exact le_trans hab hbc)
    (fun a b => by
      simp only [Bool.or_eq_true, decide_eq_true_eq]
      exact le_total a b) l
  exact this.imp (by simp)

theorem pySorted_eq_self {l : List Char} (h : l.Sorted (· ≤ ·)) :
    pySorted l = l :=
  List.mergeSort_eq_self h

theorem pySorted_nodup {l : List Char} (h : l.Nodup) : (pySorted l).Nodup :=
  (pySorted_perm l).nodup_iff.mpr h

theorem pySorted_sorted_lt {l : List Char} (h : l.Nodup) :
    (pySorted l).Sorted (· < ·) := by
  have h1 := pySorted_sorted l
  have h2 : (pySorted l).Nodup := pySorted_nodup h
  exact (h1.and h2).imp (fun hab => lt_of_le_of_ne hab.1 hab.2)

theorem pairsList_nil : pairsList [] = [] := rfl

theorem pairsList_cons (a : Char) (rest : List Char)
    (h : ∀ x ∈ rest, a < x) :
    pairsList (a :: rest) =
      (a, a) :: rest.flatMap (fun i =>
        (a, i) :: (rest.take (List.indexOf i rest + 1)).map (fun j => (j, i))) := by
  unfold pairsList
  rw [List.flatMap_cons]
  have h1 : ((a :: rest).take (List.indexOf a (a :: rest) + 1)).map
      (fun j => (j, a)) = [(a, a)] := by
    rw [List.indexOf_cons_self]
    rfl
  have h2 : rest.flatMap (fun i =>
        ((a :: rest).take (List.indexOf i (a :: rest) + 1)).map
          (fun j => (j, i)))
      = rest.flatMap (fun i =>
        (a, i) :: (rest.take (List.indexOf i rest + 1)).map (fun j => (j, i))) := by
    apply List.flatMap_congr
    intro i hi
    have hia : a ≠ i := fun hc => absurd (hc ▸ h i hi) (lt_irrefl a)
    rw [List.indexOf_cons_ne rest hia, Nat.succ_eq_add_one,
      List.take_succ_cons, List.map_cons]
  rw [h1, h2]
  rfl

/-- Decompose the flatMap body of `pairsList_cons` into the new first row
plus the pairs of the tail alphabet. -/
theorem flatMap_cons_perm {α β : Type} (l : List α) (f : α → β)
    (g : α → List β) :
    (l.flatMap (fun i => f i :: g i)).Perm (l.map f ++ l.flatMap g) := by
  induction l with
  | nil => simp
  | cons x xs ih =>
      simp only [List.flatMap_cons, List.map_cons, List.cons_append]
      refine List.Perm.cons (f x) ?_
      refine List.Perm.trans (ih.append_left (g x)) ?_
      refine List.Perm.trans
        (@List.perm_append_comm β (g x) (xs.map f ++ xs.flatMap g)) ?_
      rw [List.append_assoc]
      exact List.Perm.append_left _ List.perm_append_comm

theorem pairsList_cons_perm (a : Char) (rest : List Char)
    (h : ∀ x ∈ rest, a < x) :
    (pairsList (a :: rest)).Perm
      ((a, a) :: (rest.map (fun i => (a, i)) ++ pairsList rest)) := by
  rw [pairsList_cons a rest h]
  exact List.Perm.cons _ (flatMap_cons_perm rest _ _)

/-- Master characterisation of the loop key list for a strictly sorted
alphabet: no duplicates, `N*(N+1)/2` entries, and membership is exactly the
sorted pairs over the alphabet. -/
theorem pairsList_spec : ∀ {ab : List Char}, ab.Sorted (· < ·) →
    (pairsList ab).Nodup ∧
    2 * (pairsList ab).length = ab.length * (ab.length + 1) ∧
    ∀ p : Pair, p ∈ pairsList ab ↔ p.1 ∈ ab ∧ p.2 ∈ ab ∧ p.1 ≤ p.2 := by
  intro ab
  induction ab with
  | nil => intro _; refine ⟨by simp [pairsList_nil], by simp [pairsList_nil], ?_⟩
           intro p; simp [pairsList_nil]
  | cons a rest ih =>
      intro hs
      rw [List.sorted_cons] at hs
      obtain ⟨ha, hrest⟩ := hs
      obtain ⟨ihn, ihl, ihm⟩ := ih hrest
      have hperm := pairsList_cons_perm a rest ha
      have hanotin : a ∉ rest := fun hc => absurd (ha a hc) (lt_irrefl a)
      have hrestnd : rest.Nodup := hrest.imp (fun hab => ne_of_lt hab)
      constructor
      · rw [hperm.nodup_iff]
        rw [List.nodup_cons, List.nodup_append]
        refine ⟨?_, ?_, ihn, ?_⟩
        · intro hc
          rcases List.mem_append.mp hc with h1 | h1
          · rcases List.mem_map.mp h1 with ⟨i, hi, hie⟩
            have : i = a := by
              have := congrArg Prod.snd hie
              simpa using this
            exact hanotin (this ▸ hi)
          · have := ((ihm ((a, a))).mp h1).1
            exact hanotin this
        · refine List.Nodup.map ?_ hrestnd
          intro x y hxy
          simpa using congrArg Prod.snd hxy
        · intro p hp1 hp2
          rcases List.mem_map.mp hp1 with ⟨i, _, hie⟩
          have hfst : p.1 = a := by
            have := congrArg Prod.fst hie
            simpa using this.symm
          have : p.1 ∈ rest := ((ihm p).mp hp2).1
          exact hanotin (hfst ▸ this)
      constructor
      · have hlen := hperm.length_eq
        simp only [List.length_cons, List.length_append, List.length_map]
          at hlen
        have expand : (rest.length + 1) * (rest.length + 1 + 1)
            = rest.length * (rest.length + 1) + 2 * (rest.length + 1) := by
          ring
        rw [List.length_cons, hlen, expand, ← ihl]
        ring
      · intro p
        rw [hperm.mem_iff]
        simp only [List.mem_cons, List.mem_append, List.mem_map, ihm]
        constructor
        · rintro (hp | ⟨i, hi, rfl⟩ | ⟨h1, h2, h3⟩)
          · subst hp; exact ⟨by simp, by simp, le_refl a⟩
          · exact ⟨by simp, by simp [hi], le_of_lt (ha i hi)⟩
          · exact ⟨by simp [h1], by simp [h2], h3⟩
        · rintro ⟨h1, h2, h3⟩
          rcases h1 with e1 | e1 <;> rcases h2 with e2 | e2
          · left; cases p; simp_all
          · right; left
            refine ⟨p.2, e2, ?_⟩
            cases p; simp_all
          · exfalso
            have hlt : a < p.1 := ha _ e1
            have hle : p.1 ≤ a := e2 ▸ h3
            exact absurd hle (not_le.mpr hlt)
          · right; right; exact ⟨e1, e2, h3⟩

theorem pairsList_nodup {ab : List Char} (h : ab.Sorted (· < ·)) :
    (pairsList ab).Nodup := (pairsList_spec h).1

theorem pairsList_length {ab : List Char} (h : ab.Sorted (· < ·)) :
    2 * (pairsList ab).length = ab.length * (ab.length + 1) :=
  (pairsList_spec h).2.1

theorem mem_pairsList {ab : List Char} (h : ab.Sorted (· < ·)) (p : Pair) :
    p ∈ pairsList ab ↔ p.1 ∈ ab ∧ p.2 ∈ ab ∧ p.1 ≤ p.2 :=
  (pairsList_spec h).2.2 p

/-! ## Loop lemmas -/

section LoopLemmas

variable {α V : Type}

theorem storeLoop_nil (key : α → Pair) (F : α → Except SMErr V)
    (d0 : List (Pair × V)) : storeLoop key F d0 [] = .ok d0 := rfl

theorem storeLoop_cons_ok {key : α → Pair} {F : α → Except SMErr V}
    {e : α} {v : V} (hF : F e = .ok v) (d0 : List (Pair × V)) (es : List α) :
    storeLoop key F d0 (e :: es) = storeLoop key F (setK d0 (key e) v) es := by
  simp only [storeLoop, List.foldlM_cons, hF]
  rfl

theorem storeLoop_cons_err {key : α → Pair} {F : α → Except SMErr V}
    {e : α} {err : SMErr} (hF : F e = .error err) (d0 : List (Pair × V))
    (es : List α) : storeLoop key F d0 (e :: es) = .error err := by
  simp only [storeLoop, List.foldlM_cons, hF]
  rfl

/-- Full characterisation of the store loop when every stored expression
succeeds and the iterated keys are distinct. -/
theorem storeLoop_ok (key : α → Pair) (F : α → Except SMErr V) :
    ∀ (es : List α) (d0 : List (Pair × V)),
    (∀ e ∈ es, ∃ v, F e = .ok v) → (es.map key).Nodup →
    ∃ d1, storeLoop key F d0 es = .ok d1 ∧
      keysOf d1 = keysOf d0 ++
        (es.map key).filter (fun k => decide (k ∉ keysOf d0)) ∧
      (∀ e ∈ es, ∀ v, F e = .ok v → lookupK d1 (key e) = some v) ∧
      (∀ k, k ∉ es.map key → lookupK d1 k = lookupK d0 k) := by
  intro es
  induction es with
  | nil =>
      intro d0 _ _
      exact ⟨d0, rfl, by simp, by simp, fun k _ => rfl⟩
  | cons e es ih =>
      intro d0 hF hnd
      obtain ⟨v, hv⟩ := hF e (List.mem_cons_self e es)
      simp only [List.map_cons, List.nodup_cons] at hnd
      obtain ⟨d1, hok, hkeys, hlook, hother⟩ :=
        ih (setK d0 (key e) v)
          (fun e' he' => hF e' (List.mem_cons_of_mem e he')) hnd.2
      refine ⟨d1, ?_, ?_, ?_, ?_⟩
      · rw [storeLoop_cons_ok hv, hok]
      · rw [hkeys, keysOf_setK]
        by_cases hm : key e ∈ keysOf d0
        · rw [if_pos hm, List.map_cons, List.filter_cons,
            if_neg (by simp [hm])]
        · rw [if_neg hm, List.map_cons, List.filter_cons,
            if_pos (by simpa using hm)]
          rw [List.append_assoc, List.singleton_append]
          congr 2
          apply List.filter_congr
          intro k hk
          have hne : k ≠ key e := fun hc => hnd.1 (hc ▸ hk)
          simp only [keysOf_setK, if_neg hm, decide_eq_decide]
          constructor
          · intro hx hc
            exact hx (List.mem_append_left _ hc)
          · intro hx hc
            rcases List.mem_append.mp hc with h1 | h1
            · exact hx h1
            · exact hne (by simpa using h1)
      · intro e' he' v' hv'
        rcases List.mem_cons.mp he' with h1 | h1
        · subst h1
          have hvv : v = v' := by rw [hv] at hv'; injection hv'
          subst hvv
          rw [hother _ hnd.1, lookupK_setK_self]
        · exact hlook e' h1 v' hv'
      · intro k hk
        simp only [List.map_cons, List.mem_cons, not_or] at hk
        rw [hother k hk.2, lookupK_setK_ne _ _ _ _ hk.1]

/-- If the store loop finished, every stored expression succeeded. -/
theorem storeLoop_isOk {key : α → Pair} {F : α → Except SMErr V} :
    ∀ {es : List α} {d0 d1 : List (Pair × V)},
    storeLoop key F d0 es = .ok d1 → ∀ e ∈ es, ∃ v, F e = .ok v := by
  intro es
  induction es with
  | nil => intro d0 d1 _ e he; simp at he
  | cons e es ih =>
      intro d0 d1 h e' he'
      cases hF : F e with
      | error err => rw [storeLoop_cons_err hF] at h; cases h
      | ok v =>
          rw [storeLoop_cons_ok hF] at h
          rcases List.mem_cons.mp he' with h1 | h1
          · exact h1 ▸ ⟨v, hF⟩
          · exact ih h e' h1

/-- The pure twin of `storeLoop_ok`, for `_init_zero`'s loop. -/
theorem foldl_set_spec (f : Pair → V) :
    ∀ (ks : List Pair) (d0 : List (Pair × V)), ks.Nodup →
    keysOf (ks.foldl (fun d k => setK d k (f k)) d0) = keysOf d0 ++
        ks.filter (fun k => decide (k ∉ keysOf d0)) ∧
    (∀ k ∈ ks,
      lookupK (ks.foldl (fun d k => setK d k (f k)) d0) k = some (f k)) ∧
    (∀ k, k ∉ ks →
      lookupK (ks.foldl (fun d k => setK d k (f k)) d0) k = lookupK d0 k) := by
  intro ks
  induction ks with
  | nil =>
      intro d0 _
      exact ⟨by simp, by simp, fun k _ => rfl⟩
  | cons k0 ks ih =>
      intro d0 hnd
      simp only [List.nodup_cons] at hnd
      obtain ⟨hkeys, hlook, hother⟩ := ih (setK d0 k0 (f k0)) hnd.2
      simp only [List.foldl_cons]
      refine ⟨?_, ?_, ?_⟩
      · rw [hkeys, keysOf_setK]
        by_cases hm : k0 ∈ keysOf d0
        · rw [if_pos hm, List.filter_cons, if_neg (by simp [hm])]
        · rw [if_neg hm, List.filter_cons, if_pos (by simpa using hm)]
          rw [List.append_assoc, List.singleton_append]
          congr 2
          apply List.filter_congr
          intro k hk
          have hne : k ≠ k0 := fun hc => hnd.1 (hc ▸ hk)
          simp only [keysOf_setK, if_neg hm, decide_eq_decide]
          constructor
          · intro hx hc
            exact hx (List.mem_append_left _ hc)
          · intro hx hc
            rcases List.mem_append.mp hc with h1 | h1
            · exact hx h1
            · exact hne (by simpa using h1)
      · intro k hk
        rcases List.mem_cons.mp hk with h1 | h1
        · subst h1
          rw [hother _ hnd.1, lookupK_setK_self]
        · exact hlook k h1
      · intro k hk
        simp only [List.mem_cons, not_or] at hk
        rw [hother k hk.2, lookupK_setK_ne _ _ _ _ hk.1]

/-- Accumulating fold: when each body step adds `g e`, the fold computes the
running sum. -/
theorem foldlM_add_ok {β : Type} (B : ℝ → β → Except SMErr ℝ) (g : β → ℝ) :
    ∀ (es : List β), (∀ acc : ℝ, ∀ e ∈ es, B acc e = .ok (acc + g e)) →
    ∀ init : ℝ, es.foldlM B init = .ok (init + (es.map g).sum) := by
  intro es
  induction es with
  | nil =>
      intro _ init
      simp only [List.foldlM_nil, List.map_nil, List.sum_nil, add_zero]
      rfl
  | cons e es ih =>
      intro hB init
      rw [List.foldlM_cons, hB init e (List.mem_cons_self e es)]
      have := ih (fun acc e' he' => hB acc e' (List.mem_cons_of_mem e he'))
        (init + g e)
      simp only [List.map_cons, List.sum_cons]
      rw [show ((Except.ok (init + g e) : Except SMErr ℝ) >>= fun x =>
          List.foldlM B x es) = List.foldlM B (init + g e) es from rfl, this]
      rw [add_assoc]

end LoopLemmas

/-! ## Counting one cell per unordered pair -/

theorem countP_mem_pair :
    ∀ {l : List Pair}, l.Nodup → ∀ {x y : Pair}, x ∈ l → (y ∉ l ∨ y = x) →
    l.countP (fun k => decide (k = x ∨ k = y)) = 1 := by
  intro l
  induction l with
  | nil => intro _ x y hx _; simp at hx
  | cons h l ih =>
      intro hnd x y hx hy
      simp only [List.nodup_cons] at hnd
      rcases List.mem_cons.mp hx with h1 | h1
      · subst h1
        rw [List.countP_cons, if_pos (by simp)]
        have hz : l.countP (fun k => decide (k = x ∨ k = y)) = 0 := by
          rw [List.countP_eq_zero]
          intro a ha
          simp only [decide_eq_true_eq, not_or]
          constructor
          · intro hc; exact hnd.1 (hc ▸ ha)
          · intro hc
            rcases hy with hy | hy
            · exact hy (hc ▸ List.mem_cons_of_mem _ ha)
            · exact hnd.1 ((hc.trans hy) ▸ ha)
        rw [hz]
      · have hhx : h ≠ x := fun hc => hnd.1 (hc ▸ h1)
        have hhy : h ≠ y := by
          intro hc
          rcases hy with hy | hy
          · exact hy (hc ▸ List.mem_cons_self h l)
          · exact hhx (hc.trans hy)
        rw [List.countP_cons, if_neg (by simp [hhx, hhy])]
        have hy' : y ∉ l ∨ y = x := by
          rcases hy with hy | hy
          · exact Or.inl (fun hc => hy (List.mem_cons_of_mem _ hc))
          · exact Or.inr hy
        rw [ih hnd.2 h1 hy']

theorem countP_or_comm (l : List Pair) (x y : Pair) :
    l.countP (fun k => decide (k = x ∨ k = y)) =
      l.countP (fun k => decide (k = y ∨ k = x)) := by
  apply List.countP_congr
  intro k _
  simp [or_comm]

/-! ## Well-formed half matrices -/


theorem HalfWF.keys_nodup {V : Type} {m : SeqMat V} (h : HalfWF m) :
    (keysOf m.data).Nodup :=
  h.2.2.2.nodup_iff.mpr (pairsList_nodup h.2.1)

theorem HalfWF.mem_keys {V : Type} {m : SeqMat V} (h : HalfWF m) (k : Pair) :
    k ∈ keysOf m.data ↔ k.1 ∈ m.ab_list ∧ k.2 ∈ m.ab_list ∧ k.1 ≤ k.2 := by
  rw [h.2.2.2.mem_iff]
  exact mem_pairsList h.2.1 k

theorem HalfWF.mem_ab_iff {V : Type} {m : SeqMat V} (h : HalfWF m)
    (c : Char) : c ∈ m.ab_list ↔ c ∈ m.letters :=
  h.2.2.1.mem_iff

theorem HalfWF.two_mul_length {V : Type} {m : SeqMat V} (h : HalfWF m) :
    2 * m.data.length = m.letters.length * (m.letters.length + 1) := by
  have h1 : m.data.length = (keysOf m.data).length := by
    simp [keysOf]
  have h2 : (keysOf m.data).length = (pairsList m.ab_list).length :=
    h.2.2.2.length_eq
  have h3 : m.ab_list.length = m.letters.length := h.2.2.1.length_eq
  rw [h1, h2, ← h3]
  exact pairsList_length h.2.1

theorem HalfWF.length_half {V : Type} {m : SeqMat V} (h : HalfWF m) :
    m.data.length = m.letters.length * (m.letters.length + 1) / 2 := by
  have := h.two_mul_length
  generalize m.letters.length * (m.letters.length + 1) = M at this ⊢
  omega

theorem HalfWF.ab_eq_pySorted {V : Type} {m : SeqMat V} (h : HalfWF m) :
    pySorted m.letters = m.ab_list := by
  refine List.eq_of_perm_of_sorted
    ((pySorted_perm m.letters).trans h.2.2.1.symm) (pySorted_sorted _) ?_
  exact h.2.1.imp (fun hab => le_of_lt hab)

theorem halfWF_canonKeys {V : Type} {m : SeqMat V} (h : HalfWF m) :
    CanonKeys m := by
  refine ⟨?_, ?_, h.length_half⟩
  · intro k hk
    have := (h.mem_keys k).mp hk
    exact ⟨this.2.2, (h.mem_ab_iff k.1).mp this.1, (h.mem_ab_iff k.2).mp this.2.1⟩
  · intro a ha b hb
    have ha' : a ∈ m.ab_list := (h.mem_ab_iff a).mpr ha
    have hb' : b ∈ m.ab_list := (h.mem_ab_iff b).mpr hb
    rcases le_or_lt a b with hab | hab
    · rcases eq_or_lt_of_le hab with heq | hlt
      · subst heq
        exact countP_mem_pair h.keys_nodup
          ((h.mem_keys (a, a)).mpr ⟨ha', ha', le_refl a⟩) (Or.inr rfl)
      · refine countP_mem_pair h.keys_nodup
          ((h.mem_keys (a, b)).mpr ⟨ha', hb', hab⟩) (Or.inl ?_)
        intro hc
        have := ((h.mem_keys (b, a)).mp hc).2.2
        exact absurd this (not_le.mpr hlt)
    · rw [countP_or_comm]
      refine countP_mem_pair h.keys_nodup
        ((h.mem_keys (b, a)).mpr ⟨hb', ha', le_of_lt hab⟩) (Or.inl ?_)
      intro hc
      have := ((h.mem_keys (a, b)).mp hc).2.2
      exact absurd this (not_le.mpr hab)

/-! ## Folding a full matrix to a half matrix -/


section FoldLemmas

variable {κ V : Type} [DecidableEq κ]

theorem lookupK_isSome_of_mem {d : List (κ × V)} {k : κ}
    (h : k ∈ keysOf d) : ∃ v, lookupK d k = some v := by
  have hs := (lookupK_isSome_iff d k).mpr h
  cases hc : lookupK d k with
  | none => rw [hc] at hs; simp at hs
  | some v => exact ⟨v, rfl⟩

end FoldLemmas

theorem foldlM_pairStep_cons_ok {V : Type} [Add V] {d d' : List (Pair × V)}
    {p : Pair} (R : List Pair) (h : foldPairStep d p = .ok d') :
    List.foldlM foldPairStep d (p :: R) = List.foldlM foldPairStep d' R := by
  simp only [List.foldlM_cons, h]
  rfl

theorem offdiagKeys_cons_diag {p : Pair} (R : List Pair) (h : p.1 = p.2) :
    offdiagKeys (p :: R) = offdiagKeys R := by
  rw [offdiagKeys, List.filter_cons, if_neg (by simp [h]), offdiagKeys]

theorem offdiagKeys_cons_ne {p : Pair} (R : List Pair) (h : p.1 ≠ p.2) :
    offdiagKeys (p :: R) = p :: offdiagKeys R := by
  rw [offdiagKeys, List.filter_cons, if_pos (by simpa using h), offdiagKeys]

theorem mem_revKeys {R : List Pair} {k : Pair} :
    k ∈ revKeys R ↔ ∃ p ∈ R, p.1 ≠ p.2 ∧ k = swapP p := by
  simp only [revKeys, offdiagKeys, List.mem_map, List.mem_filter,
    decide_eq_true_eq]
  constructor
  · rintro ⟨p, ⟨hp, hne⟩, rfl⟩
    exact ⟨p, hp, hne, rfl⟩
  · rintro ⟨p, hp, hne, rfl⟩
    exact ⟨p, ⟨hp, hne⟩, rfl⟩

/-- A sorted key never equals the mirror of a strictly sorted key. -/
theorem sorted_ne_swap {k q : Pair} (hk : k.1 ≤ k.2) (hq : q.1 < q.2) :
    k ≠ swapP q := by
  intro hc
  have h1 : k.1 = q.2 := congrArg Prod.fst hc
  have h2 : k.2 = q.1 := congrArg Prod.snd hc
  rw [h1, h2] at hk
  exact absurd hq (not_lt.mpr hk)

theorem swapP_inj {p q : Pair} (h : swapP p = swapP q) : p = q :=
  Prod.ext (congrArg Prod.snd h) (congrArg Prod.fst h)

/-- Running the `_full_to_half` loop body over distinct sorted keys `R`,
when every off-diagonal key and its mirror are present: each sorted
off-diagonal cell accumulates its mirror, each mirror key is deleted, and
everything else is untouched. -/
theorem foldPair_chunk {V : Type} [Add V] :
    ∀ (R : List Pair), R.Nodup → (∀ p ∈ R, p.1 ≤ p.2) →
    ∀ (d : List (Pair × V)), (keysOf d).Nodup →
    (∀ p ∈ R, p.1 ≠ p.2 → p ∈ keysOf d ∧ swapP p ∈ keysOf d) →
    ∃ d1, R.foldlM foldPairStep d = .ok d1 ∧
      keysOf d1 = (keysOf d).filter (fun k => decide (k ∉ revKeys R)) ∧
      (∀ p ∈ R, p.1 ≠ p.2 → ∀ v1 v2, lookupK d p = some v1 →
        lookupK d (swapP p) = some v2 → lookupK d1 p = some (v1 + v2)) ∧
      (∀ k, k ∉ offdiagKeys R → k ∉ revKeys R →
        lookupK d1 k = lookupK d k) := by
  intro R
  induction R with
  | nil =>
      intro _ _ d hnd _
      refine ⟨d, rfl, ?_, by simp, fun k _ _ => rfl⟩
      rw [List.filter_eq_self.mpr]
      intro k _
      simp [revKeys, offdiagKeys]
  | cons p R ih =>
      intro hndR hsorted d hnd hcov
      simp only [List.nodup_cons] at hndR
      by_cases hdiag : p.1 = p.2
      · have hstep : foldPairStep d p = .ok d := by
          simp [foldPairStep, hdiag]
        obtain ⟨d1, hok, hkeys, hupd, hunt⟩ :=
          ih hndR.2 (fun q hq => hsorted q (List.mem_cons_of_mem p hq))
            d hnd (fun q hq hqne => hcov q (List.mem_cons_of_mem p hq) hqne)
        have hrev : revKeys (p :: R) = revKeys R := by
          rw [revKeys, offdiagKeys_cons_diag R hdiag, revKeys]
        refine ⟨d1, ?_, ?_, ?_, ?_⟩
        · rw [foldlM_pairStep_cons_ok R hstep, hok]
        · rw [hkeys, hrev]
        · intro q hq hqne v1 v2 hv1 hv2
          rcases List.mem_cons.mp hq with h1 | h1
          · exact absurd (h1 ▸ hdiag) hqne
          · exact hupd q h1 hqne v1 v2 hv1 hv2
        · intro k hk1 hk2
          rw [offdiagKeys_cons_diag R hdiag] at hk1
          rw [hrev] at hk2
          exact hunt k hk1 hk2
      · -- off-diagonal step at `p`
        have hple : p.1 ≤ p.2 := hsorted p (List.mem_cons_self p R)
        have hplt : p.1 < p.2 := lt_of_le_of_ne hple hdiag
        obtain ⟨hmem1, hmem2⟩ := hcov p (List.mem_cons_self p R) hdiag
        obtain ⟨v1, hv1⟩ := lookupK_isSome_of_mem hmem1
        obtain ⟨v2, hv2⟩ := lookupK_isSome_of_mem hmem2
        have hstep : foldPairStep d p =
            .ok (eraseK (setK d p (v1 + v2)) (swapP p)) := by
          rw [foldPairStep, if_neg hdiag, hv1,
            show ((p.2, p.1) : Pair) = swapP p from rfl, hv2]
        set d2 := eraseK (setK d p (v1 + v2)) (swapP p) with hd2
        have hpns : p ≠ swapP p := sorted_ne_swap hple hplt
        have hkeys_set : keysOf (setK d p (v1 + v2)) = keysOf d := by
          rw [keysOf_setK, if_pos hmem1]
        have hkeys_d2 : keysOf d2 =
            (keysOf d).filter (fun x => decide (x ≠ swapP p)) := by
          rw [hd2, keysOf_eraseK, hkeys_set]
        have hnd2 : (keysOf d2).Nodup := by
          rw [hkeys_d2]
          exact (List.filter_sublist _).nodup hnd
        have hlook2 : ∀ k, k ≠ p → k ≠ swapP p →
            lookupK d2 k = lookupK d k := by
          intro k h1 h2
          rw [hd2, lookupK_eraseK_ne _ _ _ h2, lookupK_setK_ne _ _ _ _ h1]
        have hstrict : ∀ q ∈ R, q.1 ≠ q.2 → q.1 < q.2 := fun q hq hqne =>
          lt_of_le_of_ne (hsorted q (List.mem_cons_of_mem p hq)) hqne
        have hcov2 : ∀ q ∈ R, q.1 ≠ q.2 →
            q ∈ keysOf d2 ∧ swapP q ∈ keysOf d2 := by
          intro q hq hqne
          obtain ⟨hq1, hq2⟩ := hcov q (List.mem_cons_of_mem p hq) hqne
          have hqs : q.1 ≤ q.2 := hsorted q (List.mem_cons_of_mem p hq)
          have hqnsp : q ≠ swapP p := sorted_ne_swap hqs hplt
          have hsqnsp : swapP q ≠ swapP p := fun hc =>
            hndR.1 (swapP_inj hc ▸ hq)
          constructor
          · rw [hkeys_d2, List.mem_filter]
            exact ⟨hq1, by simpa using hqnsp⟩
          · rw [hkeys_d2, List.mem_filter]
            exact ⟨hq2, by simpa using hsqnsp⟩
        obtain ⟨d1, hok, hkeys, hupd, hunt⟩ :=
          ih hndR.2 (fun q hq => hsorted q (List.mem_cons_of_mem p hq))
            d2 hnd2 hcov2
        have hrevc : revKeys (p :: R) = swapP p :: revKeys R := by
          rw [revKeys, offdiagKeys_cons_ne R hdiag, List.map_cons, revKeys]
        have hp_not_off : p ∉ offdiagKeys R := fun hc =>
          hndR.1 (List.mem_of_mem_filter hc)
        have hp_not_rev : p ∉ revKeys R := by
          intro hc
          rcases mem_revKeys.mp hc with ⟨q, hq, hqne, hqe⟩
          exact (sorted_ne_swap hple (hstrict q hq hqne)) hqe
        refine ⟨d1, ?_, ?_, ?_, ?_⟩
        · rw [foldlM_pairStep_cons_ok R hstep]
          exact hok
        · rw [hkeys, hkeys_d2, List.filter_filter, hrevc]
          apply List.filter_congr
          intro k _
          by_cases h1 : k = swapP p <;> by_cases h2 : k ∈ revKeys R <;>
            simp [h1, h2]
        · intro q hq hqne w1 w2 hw1 hw2
          rcases List.mem_cons.mp hq with h1 | h1
          · subst h1
            have e1 : w1 = v1 := by
              rw [hv1] at hw1
              injection hw1 with hx
              exact hx.symm
            have e2 : w2 = v2 := by
              rw [hv2] at hw2
              injection hw2 with hx
              exact hx.symm
            subst e1
            subst e2
            rw [hunt q hp_not_off hp_not_rev, hd2,
              lookupK_eraseK_ne _ _ _ hpns, lookupK_setK_self]
          · have hqlt : q.1 < q.2 := hstrict q h1 hqne
            have hqs : q.1 ≤ q.2 := le_of_lt hqlt
            have hqnp : q ≠ p := fun hc => hndR.1 (hc ▸ h1)
            have hqnsp : q ≠ swapP p := sorted_ne_swap hqs hplt
            have hsqnp : swapP q ≠ p := fun hc =>
              (sorted_ne_swap hple hqlt) hc.symm
            have hsqnsp : swapP q ≠ swapP p := fun hc =>
              hndR.1 (swapP_inj hc ▸ h1)
            refine hupd q h1 hqne w1 w2 ?_ ?_
            · rw [hlook2 q hqnp hqnsp]
              exact hw1
            · rw [hlook2 (swapP q) hsqnp hsqnsp]
              exact hw2
        · intro k hk1 hk2
          rw [offdiagKeys_cons_ne R hdiag] at hk1
          rw [hrevc] at hk2
          simp only [List.mem_cons, not_or] at hk1 hk2
          rw [hunt k hk1.2 hk2.2, hlook2 k hk1.1 hk2.1]


/-! ## Full matrices -/


theorem allPairsL_spec : ∀ {letters : List Char}, letters.Nodup →
    (allPairsL letters).Nodup ∧
    (allPairsL letters).length = letters.length * letters.length ∧
    ∀ p : Pair, p ∈ allPairsL letters ↔ p.1 ∈ letters ∧ p.2 ∈ letters := by
  intro letters
  induction letters with
  | nil =>
      intro _
      refine ⟨by simp [allPairsL], by simp [allPairsL], ?_⟩
      intro p
      simp [allPairsL]
  | cons a rest ih =>
      intro hnd
      simp only [List.nodup_cons] at hnd
      obtain ⟨ihn, ihl, ihm⟩ := ih hnd.2
      have hdec : allPairsL (a :: rest) =
          ((a, a) :: rest.map (fun b => (a, b))) ++
            rest.flatMap (fun i => (i, a) :: rest.map (fun b => (i, b))) := by
        rw [allPairsL, List.flatMap_cons, List.map_cons]
        congr 1
      have hperm : (allPairsL (a :: rest)).Perm
          ((a, a) :: (rest.map (fun b => (a, b)) ++
            (rest.map (fun i => (i, a)) ++ allPairsL rest))) := by
        rw [hdec]
        rw [List.cons_append]
        exact List.Perm.cons _
          ((flatMap_cons_perm rest (fun i => (i, a))
            (fun i => rest.map (fun b => (i, b)))).append_left _)
      have hmem : ∀ p : Pair, p ∈ allPairsL (a :: rest) ↔
          p.1 ∈ a :: rest ∧ p.2 ∈ a :: rest := by
        intro p
        rw [hperm.mem_iff]
        simp only [List.mem_cons, List.mem_append, List.mem_map, ihm]
        constructor
        · rintro (hp | ⟨b, hb, rfl⟩ | ⟨i, hi, rfl⟩ | ⟨h1, h2⟩)
          · subst hp; exact ⟨Or.inl rfl, Or.inl rfl⟩
          · exact ⟨Or.inl rfl, Or.inr hb⟩
          · exact ⟨Or.inr hi, Or.inl rfl⟩
          · exact ⟨Or.inr h1, Or.inr h2⟩
        · rintro ⟨h1 | h1, h2 | h2⟩
          · left; cases p; simp_all
          · right; left
            refine ⟨p.2, h2, ?_⟩
            cases p; simp_all
          · right; right; left
            refine ⟨p.1, h1, ?_⟩
            cases p; simp_all
          · right; right; right; exact ⟨h1, h2⟩
      refine ⟨?_, ?_, hmem⟩
      · rw [hperm.nodup_iff, List.nodup_cons, List.nodup_append,
          List.nodup_append]
        refine ⟨?_, ?_, ⟨?_, ihn, ?_⟩, ?_⟩
        · intro hc
          rcases List.mem_append.mp hc with h1 | h1
          · rcases List.mem_map.mp h1 with ⟨b, hb, hbe⟩
            have : b = a := by simpa using congrArg Prod.snd hbe
            exact hnd.1 (this ▸ hb)
          · rcases List.mem_append.mp h1 with h2 | h2
            · rcases List.mem_map.mp h2 with ⟨i, hi, hie⟩
              have : i = a := by simpa using congrArg Prod.fst hie
              exact hnd.1 (this ▸ hi)
            · exact hnd.1 ((ihm _).mp h2).1
        · exact List.Nodup.map
            (fun x y hxy => by simpa using congrArg Prod.snd hxy) hnd.2
        · exact List.Nodup.map
            (fun x y hxy => by simpa using congrArg Prod.fst hxy) hnd.2
        · intro p hp1 hp2
          rcases List.mem_map.mp hp1 with ⟨i, hi, rfl⟩
          have : a ∈ rest := by
            have := ((ihm (i, a)).mp hp2).2
            simpa using this
          exact hnd.1 this
        · intro p hp1 hp2
          rcases List.mem_map.mp hp1 with ⟨b, hb, rfl⟩
          rcases List.mem_append.mp hp2 with h1 | h1
          · rcases List.mem_map.mp h1 with ⟨i, hi, hie⟩
            have : i = a := by simpa using congrArg Prod.fst hie
            exact hnd.1 (this ▸ hi)
          · exact hnd.1 ((ihm _).mp h1).1
      · have := hperm.length_eq
        simp only [List.length_cons, List.length_append, List.length_map]
          at this
        rw [this, ihl]
        simp only [List.length_cons]
        ring


theorem FullData.key_mem {V : Type} {d : List (Pair × V)}
    {letters : List Char} (hf : FullData d letters) (k : Pair) :
    k ∈ keysOf d ↔ k.1 ∈ letters ∧ k.2 ∈ letters := by
  constructor
  · exact fun h => hf.2.2 k h
  · rintro ⟨h1, h2⟩
    exact hf.2.1 k.1 h1 k.2 h2

theorem FullData.length_sq {V : Type} {d : List (Pair × V)}
    {letters : List Char} (hl : letters.Nodup) (hf : FullData d letters) :
    d.length = letters.length * letters.length := by
  have h1 : (keysOf d).Perm (allPairsL letters) := by
    rw [List.perm_ext_iff_of_nodup hf.1 (allPairsL_spec hl).1]
    intro p
    rw [hf.key_mem, (allPairsL_spec hl).2.2]
  have h2 := h1.length_eq
  rw [(allPairsL_spec hl).2.1] at h2
  simpa [keysOf] using h2

/-- `_full_to_half` on a full matrix: every strictly sorted cell `(i,j)`
accumulates the mirror cell `(j,i)`, the mirror key is deleted, diagonal
cells are untouched, the resulting keys are exactly the sorted pairs, and
folding again is a no-op. -/
theorem full_to_half_spec {V : Type} [Add V] {d : List (Pair × V)}
    {letters : List Char} (hl : letters.Nodup) (hf : FullData d letters) :
    ∃ d1, fullToHalfData d letters (pySorted letters) = .ok d1 ∧
      (∀ i j, i ∈ letters → j ∈ letters → i < j → ∀ vij vji,
        lookupK d (i, j) = some vij → lookupK d (j, i) = some vji →
        lookupK d1 (i, j) = some (vij + vji)) ∧
      (∀ i j, i ∈ letters → j ∈ letters → i < j → lookupK d1 (j, i) = none) ∧
      (∀ a : Char, lookupK d1 (a, a) = lookupK d (a, a)) ∧
      (keysOf d1).Nodup ∧
      (keysOf d1).Perm (pairsList (pySorted letters)) ∧
      fullToHalfData d1 letters (pySorted letters) = .ok d1 := by
  have hab_sorted : (pySorted letters).Sorted (· < ·) := pySorted_sorted_lt hl
  have hab_perm : (pySorted letters).Perm letters := pySorted_perm letters
  have hlen := hf.length_sq hl
  by_cases hN : letters.length ≤ 1
  · -- degenerate alphabet: already half-sized, the fold is the identity
    have hsmall : ∀ x ∈ letters, ∀ y ∈ letters, x = y := by
      cases letters with
      | nil => intro x hx; simp at hx
      | cons c rest =>
          have : rest.length = 0 := by
            simp only [List.length_cons] at hN
            omega
          have hrest : rest = [] := List.eq_nil_of_length_eq_zero this
          subst hrest
          intro x hx y hy
          simp only [List.mem_singleton] at hx hy
          rw [hx, hy]
    have hcheck : d.length = letters.length * (letters.length + 1) / 2 := by
      have : letters.length = 0 ∨ letters.length = 1 := by omega
      rcases this with h0 | h0 <;> rw [h0] at hlen <;> rw [h0, hlen]
    have hret : fullToHalfData d letters (pySorted letters) = .ok d := by
      rw [fullToHalfData, if_pos hcheck]
    have hperm1 : (keysOf d).Perm (pairsList (pySorted letters)) := by
      rw [List.perm_ext_iff_of_nodup hf.1 (pairsList_nodup hab_sorted)]
      intro p
      rw [hf.key_mem, mem_pairsList hab_sorted]
      constructor
      · rintro ⟨h1, h2⟩
        refine ⟨hab_perm.mem_iff.mpr h1, hab_perm.mem_iff.mpr h2, ?_⟩
        rw [hsmall p.1 h1 p.2 h2]
      · rintro ⟨h1, h2, _⟩
        exact ⟨hab_perm.mem_iff.mp h1, hab_perm.mem_iff.mp h2⟩
    have hret1 : fullToHalfData d letters (pySorted letters) = .ok d := hret
    refine ⟨d, hret, ?_, ?_, fun a => rfl, hf.1, hperm1, hret1⟩
    · intro i j hi hj hij _ _ _ _
      exact absurd (hsmall i hi j hj) (ne_of_lt hij)
    · intro i j hi hj hij
      exact absurd (hsmall i hi j hj) (ne_of_lt hij)
  · -- genuine full matrix: the folding loop runs
    have hcheck : ¬ d.length = letters.length * (letters.length + 1) / 2 := by
      rw [hlen]
      intro hc
      have heven : 2 ∣ letters.length * (letters.length + 1) :=
        (Nat.even_mul_succ_self letters.length).two_dvd
      have h2 : 2 * (letters.length * (letters.length + 1) / 2)
          = letters.length * (letters.length + 1) :=
        Nat.mul_div_cancel' heven
      rw [← hc] at h2
      have hge : 2 * letters.length ≤ letters.length * letters.length :=
        Nat.mul_le_mul_right letters.length (by omega)
      have hexp : letters.length * (letters.length + 1)
          = letters.length * letters.length + letters.length := by ring
      rw [hexp] at h2
      generalize letters.length * letters.length = M at h2 hge
      omega
    have hfold : fullToHalfData d letters (pySorted letters)
        = (pairsList (pySorted letters)).foldlM foldPairStep d := by
      rw [fullToHalfData, if_neg hcheck]
    obtain ⟨d1, hok, hkeys, hupd, hunt⟩ :=
      foldPair_chunk (pairsList (pySorted letters))
        (pairsList_nodup hab_sorted)
        (fun p hp => ((mem_pairsList hab_sorted p).mp hp).2.2)
        d hf.1
        (fun p hp hne => by
          obtain ⟨h1, h2, _⟩ := (mem_pairsList hab_sorted p).mp hp
          constructor
          · rw [hf.key_mem]
            exact ⟨hab_perm.mem_iff.mp h1, hab_perm.mem_iff.mp h2⟩
          · rw [hf.key_mem]
            exact ⟨hab_perm.mem_iff.mp h2, hab_perm.mem_iff.mp h1⟩)
    have hmem_d1 : ∀ k : Pair, k ∈ keysOf d1 ↔
        k ∈ keysOf d ∧ k ∉ revKeys (pairsList (pySorted letters)) := by
      intro k
      rw [hkeys, List.mem_filter]
      simp only [decide_eq_true_eq]
    have hstrict_rev : ∀ k : Pair, k.1 ≤ k.2 →
        k ∉ revKeys (pairsList (pySorted letters)) := by
      intro k hk hc
      rcases mem_revKeys.mp hc with ⟨q, hq, hqne, hqe⟩
      have hqs := ((mem_pairsList hab_sorted q).mp hq).2.2
      exact (sorted_ne_swap hk (lt_of_le_of_ne hqs hqne)) hqe
    have hnd1 : (keysOf d1).Nodup := by
      rw [hkeys]
      exact (List.filter_sublist _).nodup hf.1
    have hpermkeys : (keysOf d1).Perm (pairsList (pySorted letters)) := by
      rw [List.perm_ext_iff_of_nodup hnd1 (pairsList_nodup hab_sorted)]
      intro p
      rw [hmem_d1, hf.key_mem, mem_pairsList hab_sorted]
      constructor
      · rintro ⟨⟨h1, h2⟩, hrev⟩
        refine ⟨hab_perm.mem_iff.mpr h1, hab_perm.mem_iff.mpr h2, ?_⟩
        by_contra hle
        apply hrev
        rw [mem_revKeys]
        refine ⟨(p.2, p.1), ?_, ?_, ?_⟩
        · rw [mem_pairsList hab_sorted]
          exact ⟨hab_perm.mem_iff.mpr h2, hab_perm.mem_iff.mpr h1,
            le_of_lt (not_le.mp hle)⟩
        · exact fun hc => (ne_of_lt (not_le.mp hle)) hc
        · rfl
      · rintro ⟨h1, h2, h3⟩
        exact ⟨⟨hab_perm.mem_iff.mp h1, hab_perm.mem_iff.mp h2⟩,
          hstrict_rev p h3⟩
    have hlen1 : d1.length
        = letters.length * (letters.length + 1) / 2 := by
      have h1 : d1.length = (keysOf d1).length := by simp [keysOf]
      have h2 := hpermkeys.length_eq
      have h3 := pairsList_length hab_sorted
      have h4 : (pySorted letters).length = letters.length :=
        hab_perm.length_eq
      rw [h1, h2]
      rw [h4] at h3
      generalize hM : letters.length * (letters.length + 1) = M at h3 ⊢
      omega
    refine ⟨d1, hfold ▸ hok, ?_, ?_, ?_, hnd1, hpermkeys, ?_⟩
    · intro i j hi hj hij vij vji hv1 hv2
      have hp : (i, j) ∈ pairsList (pySorted letters) := by
        rw [mem_pairsList hab_sorted]
        exact ⟨hab_perm.mem_iff.mpr hi, hab_perm.mem_iff.mpr hj,
          le_of_lt hij⟩
      exact hupd (i, j) hp (ne_of_lt hij) vij vji hv1 hv2
    · intro i j hi hj hij
      rw [lookupK_eq_none_iff, hmem_d1]
      rintro ⟨_, hrev⟩
      apply hrev
      rw [mem_revKeys]
      refine ⟨(i, j), ?_, ne_of_lt hij, rfl⟩
      rw [mem_pairsList hab_sorted]
      exact ⟨hab_perm.mem_iff.mpr hi, hab_perm.mem_iff.mpr hj, le_of_lt hij⟩
    · intro a
      refine hunt (a, a) ?_ ?_
      · intro hc
        have := List.of_mem_filter hc
        simp at this
      · exact hstrict_rev (a, a) (le_refl a)
    · rw [fullToHalfData, if_pos hlen1]

/-! ## Constructor lemmas -/

theorem pySorted_nil : pySorted [] = [] :=
  pySorted_eq_self List.sorted_nil

theorem seqMatZero_letters {V : Type} [Zero V] (letters : List Char)
    (mt : Nat) : (seqMatZero V letters mt).letters = letters := by
  cases letters with
  | nil =>
      simp only [seqMatZero, List.isEmpty_nil, if_pos, alphabetFromMatrix]
      simp [pySorted_nil]
  | cons c rest => rfl

theorem seqMatZero_ab {V : Type} [Zero V] (letters : List Char) (mt : Nat) :
    (seqMatZero V letters mt).ab_list = pySorted letters := by
  cases letters with
  | nil =>
      simp only [seqMatZero, List.isEmpty_nil, if_pos, alphabetFromMatrix]
      simp [pySorted_nil]
  | cons c rest => rfl

theorem seqMatZero_mat_type {V : Type} [Zero V] (letters : List Char)
    (mt : Nat) : (seqMatZero V letters mt).mat_type = mt := by
  cases letters <;> rfl

theorem seqMatZero_data {V : Type} [Zero V] (letters : List Char) (mt : Nat) :
    (seqMatZero V letters mt).data =
      initZero ([] : List (Pair × V)) (pySorted letters) := by
  cases letters with
  | nil =>
      simp only [seqMatZero, List.isEmpty_nil, if_pos, alphabetFromMatrix]
      simp [pySorted_nil]
  | cons c rest => rfl

theorem initZero_spec {V : Type} [Zero V] {ab : List Char}
    (h : ab.Sorted (· < ·)) :
    keysOf (initZero ([] : List (Pair × V)) ab) = pairsList ab ∧
    ∀ k ∈ pairsList ab,
      lookupK (initZero ([] : List (Pair × V)) ab) k = some 0 := by
  have h0 := foldl_set_spec (V := V) (fun _ => (0 : V)) (pairsList ab) []
    (pairsList_nodup h)
  have hdef : initZero ([] : List (Pair × V)) ab =
      (pairsList ab).foldl
        (fun d k => setK d k ((fun _ => (0 : V)) k)) [] := rfl
  constructor
  · rw [hdef, h0.1]
    simp [keysOf]
  · intro k hk
    rw [hdef]
    exact h0.2.1 k hk

theorem seqMatZero_wf {V : Type} [Zero V] {letters : List Char}
    (h : letters.Nodup) (mt : Nat) : HalfWF (seqMatZero V letters mt) := by
  have hs : (pySorted letters).Sorted (· < ·) := pySorted_sorted_lt h
  refine ⟨?_, ?_, ?_, ?_⟩
  · rw [seqMatZero_letters]
    exact h
  · rw [seqMatZero_ab]
    exact hs
  · rw [seqMatZero_ab, seqMatZero_letters]
    exact pySorted_perm letters
  · rw [seqMatZero_ab, seqMatZero_data, (initZero_spec hs).1]

/-- Copy-construction re-infers exactly the sorted alphabet from a
well-formed half matrix. -/
theorem alphabetFromMatrix_of_wf {V : Type} {m : SeqMat V} (h : HalfWF m) :
    alphabetFromMatrix m.data = m.ab_list := by
  have hmem : ∀ c : Char,
      c ∈ (m.data.flatMap (fun e => [e.1.1, e.1.2])).dedup ↔
        c ∈ m.ab_list := by
    intro c
    rw [List.mem_dedup, List.mem_flatMap]
    constructor
    · rintro ⟨e, he, hc⟩
      have hk : e.1 ∈ keysOf m.data := List.mem_map_of_mem Prod.fst he
      have := (h.mem_keys e.1).mp hk
      simp only [List.mem_cons, List.mem_singleton] at hc
      rcases hc with hc | hc | hc
      · exact hc ▸ this.1
      · exact hc ▸ this.2.1
      · simp at hc
    · intro hc
      have hk : (c, c) ∈ keysOf m.data :=
        (h.mem_keys (c, c)).mpr ⟨hc, hc, le_refl c⟩
      rcases List.mem_map.mp hk with ⟨e, he, hee⟩
      refine ⟨e, he, ?_⟩
      simp only [List.mem_cons, List.mem_singleton]
      left
      rw [hee]
  have hnd : ((m.data.flatMap (fun e => [e.1.1, e.1.2])).dedup).Nodup :=
    List.nodup_dedup _
  have hperm : ((m.data.flatMap (fun e => [e.1.1, e.1.2])).dedup).Perm
      m.ab_list := by
    rw [List.perm_ext_iff_of_nodup hnd (h.2.2.1.nodup_iff.mpr h.1)]
    exact hmem
  refine List.eq_of_perm_of_sorted
    ((pySorted_perm _).trans hperm) (pySorted_sorted _) ?_
  exact h.2.1.imp (fun hab => le_of_lt hab)

theorem copy_wf {V : Type} {m : SeqMat V} (h : HalfWF m)
    (d : List (Pair × V)) (mt : Nat)
    (hk : (keysOf d).Perm (pairsList m.ab_list)) :
    HalfWF { data := d, letters := m.ab_list, ab_list := m.ab_list,
             mat_type := mt } := by
  have hnd : m.ab_list.Nodup := h.2.2.1.nodup_iff.mpr h.1
  exact ⟨hnd, h.2.1, List.Perm.refl _, hk⟩

/-- `SeqMat(other_mat)` — copy construction with the alphabet re-inferred —
succeeds on a well-formed half matrix and keeps its data and sorted
alphabet. -/
theorem seqMatOfData_copy {V : Type} [Add V] {m : SeqMat V} (h : HalfWF m)
    (mt : Nat) :
    seqMatOfData m.data [] mt =
      .ok { data := m.data, letters := m.ab_list, ab_list := m.ab_list,
            mat_type := mt } := by
  have hab : alphabetFromMatrix m.data = m.ab_list := alphabetFromMatrix_of_wf h
  have hablen : m.ab_list.length = m.letters.length := h.2.2.1.length_eq
  have hlen : m.data.length =
      m.ab_list.length * (m.ab_list.length + 1) / 2 := by
    rw [hablen]
    exact h.length_half
  have hsorted_ab : pySorted m.ab_list = m.ab_list :=
    pySorted_eq_self (h.2.1.imp (fun hab => le_of_lt hab))
  rw [seqMatOfData]
  simp only [List.isEmpty_nil, if_pos, hab]
  rw [if_pos (Or.inr hlen)]
  rw [hsorted_ab, fullToHalfData, if_pos hlen]
  rfl

/-- When a finished store loop only wrote to existing keys, the key list is
unchanged. -/
theorem storeLoop_keys_of_ok {α V : Type} {key : α → Pair}
    {F : α → Except SMErr V} {d0 d1 : List (Pair × V)} {es : List α}
    (h : storeLoop key F d0 es = .ok d1) (hnd : (es.map key).Nodup)
    (hsub : ∀ e ∈ es, key e ∈ keysOf d0) : keysOf d1 = keysOf d0 := by
  obtain ⟨d1', hok, hkeys, _, _⟩ :=
    storeLoop_ok key F es d0 (storeLoop_isOk h) hnd
  have : d1' = d1 := by
    rw [h] at hok
    injection hok with hx
    exact hx.symm
  subst this
  rw [hkeys, List.filter_eq_nil_iff.mpr, List.append_nil]
  intro k hk
  rcases List.mem_map.mp hk with ⟨e, he, rfl⟩
  simp only [decide_eq_true_eq, not_not]
  exact hsub e he

/-! ## Stage characterisations -/

theorem bind_ok_red {ε α β : Type} (a : α) (f : α → Except ε β) :
    (Except.ok a >>= f) = f a := rfl

theorem bind_err_red {ε α β : Type} (err : ε) (f : α → Except ε β) :
    ((Except.error err : Except ε α) >>= f) = .error err := rfl

theorem log_ne_zero_aux {x : ℝ} (h1 : 0 < x) (h2 : x ≠ 1) :
    Real.log x ≠ 0 := by
  intro hc
  rcases Real.log_eq_zero.mp hc with h | h | h
  · exact absurd h (ne_of_gt h1)
  · exact h2 h
  · linarith

/-- `_build_obs_freq_mat` on a well-formed input with nonzero total: the
result is the well-formed normalised matrix over the same alphabet. -/
theorem buildObsFreq_spec {V : Type} [Field V] [DecidableEq V]
    {arm : SeqMat V} (hwf : HalfWF arm) (hs : sumValues arm.data ≠ 0) :
    ∃ obs, buildObsFreqMat arm = .ok obs ∧
      obs.letters = arm.letters ∧ obs.ab_list = arm.ab_list ∧
      obs.mat_type = OBSFREQ ∧ HalfWF obs ∧
      (∀ k v, lookupK arm.data k = some v →
        lookupK obs.data k = some (v / sumValues arm.data)) ∧
      obs.data.Perm
        (arm.data.map (fun e => (e.1, e.2 / sumValues arm.data))) := by
  have hab : pySorted arm.letters = arm.ab_list := hwf.ab_eq_pySorted
  have hsort : arm.ab_list.Sorted (· < ·) := hwf.2.1
  have hkeys0 : keysOf (seqMatZero V arm.letters).data
      = pairsList arm.ab_list := by
    rw [seqMatZero_data, hab, (initZero_spec hsort).1]
  have hndarm : (keysOf arm.data).Nodup := hwf.keys_nodup
  have hallok : ∀ e ∈ arm.data, ∃ v,
      pyDiv e.2 (sumValues arm.data) = .ok v :=
    fun e _ => ⟨e.2 / sumValues arm.data, by rw [pyDiv, if_neg hs]⟩
  obtain ⟨d1, hok, hkeys, hlook, _⟩ :=
    storeLoop_ok Prod.fst (fun e => pyDiv e.2 (sumValues arm.data))
      arm.data (seqMatZero V arm.letters).data hallok hndarm
  have hsub : ∀ e ∈ arm.data,
      e.1 ∈ keysOf (seqMatZero V arm.letters).data := by
    intro e he
    rw [hkeys0]
    exact hwf.2.2.2.mem_iff.mp (List.mem_map_of_mem Prod.fst he)
  have hkeys1 : keysOf d1 = pairsList arm.ab_list := by
    rw [hkeys, List.filter_eq_nil_iff.mpr, List.append_nil, hkeys0]
    intro k hk
    rcases List.mem_map.mp hk with ⟨e, he, rfl⟩
    simp only [decide_eq_true_eq, not_not]
    exact hsub e he
  have hlet : (seqMatZero V arm.letters).letters = arm.letters :=
    seqMatZero_letters arm.letters NOTYPE
  have habl : (seqMatZero V arm.letters).ab_list = arm.ab_list :=
    (seqMatZero_ab arm.letters NOTYPE).trans hab
  refine ⟨{ seqMatZero V arm.letters with data := d1, mat_type := OBSFREQ },
    ?_, hlet, habl, rfl, ?_, ?_, ?_⟩
  · simp only [buildObsFreqMat]
    rw [hok, bind_ok_red]
    rfl
  · refine ⟨?_, ?_, ?_, ?_⟩
    · show (seqMatZero V arm.letters).letters.Nodup
      rw [hlet]
      exact hwf.1
    · show (seqMatZero V arm.letters).ab_list.Sorted (· < ·)
      rw [habl]
      exact hsort
    · show ((seqMatZero V arm.letters).ab_list).Perm
        ((seqMatZero V arm.letters).letters)
      rw [habl, hlet]
      exact hwf.2.2.1
    · show (keysOf d1).Perm (pairsList (seqMatZero V arm.letters).ab_list)
      rw [habl, hkeys1]
  · intro k v hv
    have hmem : (k, v) ∈ arm.data := lookupK_mem hv
    have := hlook (k, v) hmem (v / sumValues arm.data)
      (by rw [pyDiv, if_neg hs])
    exact this
  · show d1.Perm (arm.data.map (fun e => (e.1, e.2 / sumValues arm.data)))
    apply assoc_ext_perm
    · rw [hkeys1]
      exact pairsList_nodup hsort
    · have hmk : keysOf
          (arm.data.map (fun e => (e.1, e.2 / sumValues arm.data)))
          = keysOf arm.data := by
        simp only [keysOf, List.map_map]
        rfl
      rw [hmk]
      exact hndarm
    · intro k
      rw [lookupK_map_val]
      cases hfind : arm.data.find? (fun e => decide (e.1 = k)) with
      | none =>
          have harm : lookupK arm.data k = none := by
            rw [lookupK, hfind]
            rfl
          have hnk : k ∉ keysOf arm.data := (lookupK_eq_none_iff _ _).mp harm
          have hnp : k ∉ pairsList arm.ab_list := fun hc =>
            hnk (hwf.2.2.2.mem_iff.mpr hc)
          rw [(lookupK_eq_none_iff _ _).mpr (by rw [hkeys1]; exact hnp)]
          rfl
      | some e =>
          have harm : lookupK arm.data k = some e.2 := by
            rw [lookupK, hfind]
            rfl
          have he : e.1 = k := by simpa using List.find?_some hfind
          have hmem : e ∈ arm.data := List.mem_of_find?_eq_some hfind
          have := hlook e hmem (e.2 / sumValues arm.data)
            (by rw [pyDiv, if_neg hs])
          rw [he] at this
          rw [this]
          rfl

/-- `_build_obs_freq_mat` on a nonempty matrix whose total is zero raises
`ZeroDivisionError` at the first stored entry. -/
theorem buildObsFreq_zero_err {V : Type} [Field V] [DecidableEq V]
    {arm : SeqMat V} (hs : sumValues arm.data = 0) (hne : arm.data ≠ []) :
    buildObsFreqMat arm = .error .zeroDivision := by
  cases harm : arm.data with
  | nil => exact absurd harm hne
  | cons e tl =>
      rw [harm] at hs
      have hF : pyDiv (V := V) e.2 (sumValues (e :: tl)) =
          .error .zeroDivision := by
        rw [pyDiv, if_pos hs]
      simp only [buildObsFreqMat, harm]
      rw [storeLoop_cons_err
        (F := fun x : Pair × V => pyDiv x.2 (sumValues (e :: tl))) hF,
        bind_err_red]

/-- `_build_exp_freq_mat` over a table covering its alphabet builds the
well-formed expected-frequency matrix. -/
theorem buildExpFreqMat_spec {V : Type} [Field V] {t : FreqTable V}
    (hnd : t.letters.Nodup) (tv : Char → V)
    (ht : ∀ c ∈ t.letters, lookupK t.data c = some (tv c)) :
    ∃ m, buildExpFreqMat t = .ok m ∧ m.letters = t.letters ∧
      m.ab_list = pySorted t.letters ∧ m.mat_type = EXPFREQ ∧ HalfWF m ∧
      ∀ k ∈ pairsList (pySorted t.letters), lookupK m.data k =
        some (if k.1 = k.2 then tv k.1 ^ 2 else 2 * tv k.1 * tv k.2) := by
  have hsort : (pySorted t.letters).Sorted (· < ·) := pySorted_sorted_lt hnd
  have hkeys0 : keysOf (seqMatZero V t.letters).data
      = pairsList (pySorted t.letters) := by
    rw [seqMatZero_data, (initZero_spec hsort).1]
  have hmemab : ∀ c, c ∈ pySorted t.letters ↔ c ∈ t.letters :=
    fun c => (pySorted_perm t.letters).mem_iff
  have hexp : ∀ k ∈ keysOf (seqMatZero V t.letters).data,
      (if k.1 = k.2 then
          lookupExc t.data k.1 >>= fun v => pure (v ^ 2)
        else
          lookupExc t.data k.1 >>= fun v1 =>
            lookupExc t.data k.2 >>= fun v2 => pure (2 * v1 * v2)) =
      Except.ok (if k.1 = k.2 then tv k.1 ^ 2 else 2 * tv k.1 * tv k.2) := by
    intro k hk
    rw [hkeys0] at hk
    obtain ⟨h1, h2, _⟩ := (mem_pairsList hsort k).mp hk
    have hv1 := ht k.1 ((hmemab k.1).mp h1)
    have hv2 := ht k.2 ((hmemab k.2).mp h2)
    by_cases hd : k.1 = k.2
    · rw [if_pos hd, if_pos hd]
      simp [lookupExc, hv1]
    · rw [if_neg hd, if_neg hd]
      simp [lookupExc, hv1, hv2]
      rfl
  have hallok : ∀ k ∈ keysOf (seqMatZero V t.letters).data, ∃ v,
      (fun k : Pair =>
        if k.1 = k.2 then
          lookupExc t.data k.1 >>= fun v => pure (v ^ 2)
        else
          lookupExc t.data k.1 >>= fun v1 =>
            lookupExc t.data k.2 >>= fun v2 => pure (2 * v1 * v2)) k
        = .ok v :=
    fun k hk => ⟨_, hexp k hk⟩
  have hndkeys : ((keysOf (seqMatZero V t.letters).data).map id).Nodup := by
    rw [List.map_id, hkeys0]
    exact pairsList_nodup hsort
  obtain ⟨d1, hok, hkeys, hlook, _⟩ :=
    storeLoop_ok id _ (keysOf (seqMatZero V t.letters).data)
      (seqMatZero V t.letters).data hallok hndkeys
  have hkeys1 : keysOf d1 = pairsList (pySorted t.letters) := by
    rw [hkeys, List.filter_eq_nil_iff.mpr, List.append_nil, hkeys0]
    intro k hk
    rw [List.map_id] at hk
    simp only [decide_eq_true_eq, not_not]
    exact hk
  have hlet : (seqMatZero V t.letters).letters = t.letters :=
    seqMatZero_letters t.letters NOTYPE
  have habl : (seqMatZero V t.letters).ab_list = pySorted t.letters :=
    seqMatZero_ab t.letters NOTYPE
  refine ⟨{ seqMatZero V t.letters with data := d1, mat_type := EXPFREQ },
    ?_, hlet, habl, rfl, ?_, ?_⟩
  · simp only [buildExpFreqMat]
    rw [hok, bind_ok_red]
    rfl
  · refine ⟨?_, ?_, ?_, ?_⟩
    · show (seqMatZero V t.letters).letters.Nodup
      rw [hlet]
      exact hnd
    · show (seqMatZero V t.letters).ab_list.Sorted (· < ·)
      rw [habl]
      exact hsort
    · show ((seqMatZero V t.letters).ab_list).Perm
        ((seqMatZero V t.letters).letters)
      rw [habl, hlet]
      exact pySorted_perm t.letters
    · show (keysOf d1).Perm (pairsList (seqMatZero V t.letters).ab_list)
      rw [habl, hkeys1]
  · intro k hk
    have hk0 : k ∈ keysOf (seqMatZero V t.letters).data := by
      rw [hkeys0]
      exact hk
    have := hlook k hk0 _ (hexp k hk0)
    exact this

/-- `_build_subs_mat` with distinct sorted alphabets raises
`AlphabetMismatchError`. -/
theorem buildSubsMat_mismatch {V : Type} [Field V] [DecidableEq V]
    {o em : SeqMat V} (h : o.ab_list ≠ em.ab_list) :
    buildSubsMat o em = .error .alphabetMismatch := by
  rw [buildSubsMat, if_pos h]

/-- `_build_subs_mat` with equal sorted alphabets and nonzero expected
values divides cell-wise. -/
theorem buildSubsMat_spec {V : Type} [Field V] [DecidableEq V]
    {o em : SeqMat V} (hwfo : HalfWF o) (heq : o.ab_list = em.ab_list)
    (hcov : ∀ k ∈ keysOf o.data, ∃ v, lookupK em.data k = some v ∧ v ≠ 0) :
    ∃ s, buildSubsMat o em = .ok s ∧
      s.letters = o.ab_list ∧ s.ab_list = o.ab_list ∧ s.mat_type = SUBS ∧
      HalfWF s ∧
      ∀ k vo ve, lookupK o.data k = some vo → lookupK em.data k = some ve →
        lookupK s.data k = some (vo / ve) := by
  have hndo : (keysOf o.data).Nodup := hwfo.keys_nodup
  have hallok : ∀ e ∈ o.data, ∃ v,
      (lookupExc em.data e.1 >>= fun ev => pyDiv e.2 ev) = .ok v := by
    intro e he
    obtain ⟨v, hv, hvne⟩ := hcov e.1 (List.mem_map_of_mem Prod.fst he)
    refine ⟨e.2 / v, ?_⟩
    simp only [lookupExc, hv]
    rw [bind_ok_red, pyDiv, if_neg hvne]
  obtain ⟨d1, hok, hkeys, hlook, _⟩ :=
    storeLoop_ok Prod.fst _ o.data o.data hallok hndo
  have hkeys1 : keysOf d1 = keysOf o.data := by
    rw [hkeys, List.filter_eq_nil_iff.mpr, List.append_nil]
    intro k hk
    rcases List.mem_map.mp hk with ⟨e, he, rfl⟩
    simp only [decide_eq_true_eq, not_not]
    exact List.mem_map_of_mem Prod.fst he
  refine ⟨⟨d1, o.ab_list, o.ab_list, SUBS⟩, ?_, rfl, rfl, rfl, ?_, ?_⟩
  · rw [buildSubsMat, if_neg (fun hc => hc heq)]
    rw [seqMatOfData_copy hwfo NOTYPE, bind_ok_red, hok, bind_ok_red]
    rfl
  · refine copy_wf hwfo d1 SUBS ?_
    rw [hkeys1]
    exact hwfo.2.2.2
  · intro k vo ve hvo hve
    have hmem : (k, vo) ∈ o.data := lookupK_mem hvo
    refine hlook (k, vo) hmem (vo / ve) ?_
    simp only [lookupExc, hve]
    obtain ⟨v, hv, hvne⟩ := hcov k (List.mem_map_of_mem Prod.fst hmem)
    have : ve = v := by
      rw [hve] at hv
      injection hv
    subst this
    rw [bind_ok_red, pyDiv, if_neg hvne]

/-- `_build_log_odds_mat` on a well-formed positive matrix with a valid
base: every cell becomes the rounded scaled base-`logbase` logarithm. -/
theorem buildLogOdds_spec {subs : SeqMat ℝ} (hwf : HalfWF subs)
    (logbase factor : ℝ) (rd : ℤ)
    (hpos : ∀ e ∈ subs.data, 0 < e.2) (hlb : 0 < logbase)
    (hlb1 : logbase ≠ 1) :
    ∃ lo, buildLogOddsMat subs logbase factor rd = .ok lo ∧
      lo.letters = subs.ab_list ∧ lo.ab_list = subs.ab_list ∧
      lo.mat_type = LO ∧ HalfWF lo ∧
      ∀ k v, lookupK subs.data k = some v → lookupK lo.data k =
        some (pyRound (factor * Real.log v / Real.log logbase) rd) := by
  have hnds : (keysOf subs.data).Nodup := hwf.keys_nodup
  have hlogne : Real.log logbase ≠ 0 := log_ne_zero_aux hlb hlb1
  have hFok : ∀ e ∈ subs.data,
      (pyLog e.2 >>= fun lg => pyLog logbase >>= fun lb =>
        pyDiv (factor * lg) lb >>= fun q => pure (pyRound q rd)) =
      Except.ok (pyRound (factor * Real.log e.2 / Real.log logbase) rd) := by
    intro e he
    rw [pyLog, if_neg (not_le.mpr (hpos e he)), bind_ok_red, pyLog,
      if_neg (not_le.mpr hlb), bind_ok_red, pyDiv, if_neg hlogne,
      bind_ok_red]
    rfl
  have hallok : ∀ e ∈ subs.data, ∃ v,
      (fun e : Pair × ℝ => pyLog e.2 >>= fun lg => pyLog logbase >>=
        fun lb => pyDiv (factor * lg) lb >>= fun q =>
          pure (pyRound q rd)) e = .ok v :=
    fun e he => ⟨_, hFok e he⟩
  obtain ⟨d1, hok, hkeys, hlook, _⟩ :=
    storeLoop_ok Prod.fst _ subs.data subs.data hallok hnds
  have hkeys1 : keysOf d1 = keysOf subs.data := by
    rw [hkeys, List.filter_eq_nil_iff.mpr, List.append_nil]
    intro k hk
    rcases List.mem_map.mp hk with ⟨e, he, rfl⟩
    simp only [decide_eq_true_eq, not_not]
    exact List.mem_map_of_mem Prod.fst he
  refine ⟨⟨d1, subs.ab_list, subs.ab_list, LO⟩, ?_, rfl, rfl, rfl, ?_, ?_⟩
  · simp only [buildLogOddsMat]
    rw [seqMatOfData_copy hwf NOTYPE, bind_ok_red, hok, bind_ok_red]
    rfl
  · refine copy_wf hwf d1 LO ?_
    rw [hkeys1]
    exact hwf.2.2.2
  · intro k v hv
    have hmem : (k, v) ∈ subs.data := lookupK_mem hv
    exact hlook (k, v) hmem _ (hFok (k, v) hmem)

/-- `entropy` on a `LO`-kind matrix computes
`Σ obs[i]*self[i]/log 2` over the matrix's own keys. -/
theorem entropy_LO {self obs : SeqMat ℝ} (h : self.mat_type = LO)
    (FF : Pair → ℝ)
    (hcov : ∀ e ∈ self.data, lookupK obs.data e.1 = some (FF e.1)) :
    entropy self obs =
      .ok ((self.data.map (fun e => FF e.1 * e.2 / Real.log 2)).sum) := by
  rw [entropy, if_pos h]
  have hB : ∀ acc : ℝ, ∀ e ∈ self.data,
      (lookupExc obs.data e.1 >>= fun ov =>
        pure (acc + ov * e.2 / Real.log 2)) =
      Except.ok (acc + FF e.1 * e.2 / Real.log 2) := by
    intro acc e he
    simp only [lookupExc, hcov e he]
    rw [bind_ok_red]
    rfl
  have := foldlM_add_ok _ (fun e => FF e.1 * e.2 / Real.log 2)
    self.data hB 0
  rw [this, zero_add]

/-- `entropy` on a `SUBS`-kind matrix with positive cells computes
`Σ obs[i]*log(self[i])/log 2` over the matrix's own keys. -/
theorem entropy_SUBS {self obs : SeqMat ℝ} (h : self.mat_type = SUBS)
    (hns : self.mat_type ≠ LO) (FF : Pair → ℝ)
    (hcov : ∀ e ∈ self.data, lookupK obs.data e.1 = some (FF e.1))
    (hpos : ∀ e ∈ self.data, 0 < e.2) :
    entropy self obs =
      .ok ((self.data.map
        (fun e => FF e.1 * Real.log e.2 / Real.log 2)).sum) := by
  rw [entropy, if_neg hns, if_pos h]
  have hB : ∀ acc : ℝ, ∀ e ∈ self.data,
      (lookupExc obs.data e.1 >>= fun ov => pyLog e.2 >>= fun lg =>
        pure (acc + ov * lg / Real.log 2)) =
      Except.ok (acc + FF e.1 * Real.log e.2 / Real.log 2) := by
    intro acc e he
    simp only [lookupExc, hcov e he]
    rw [bind_ok_red, pyLog, if_neg (not_le.mpr (hpos e he)), bind_ok_red]
    rfl
  have := foldlM_add_ok _
    (fun e => FF e.1 * Real.log e.2 / Real.log 2) self.data hB 0
  rw [this, zero_add]

/-- `entropy` on any other kind raises `TypeError`. -/
theorem entropy_gate {self obs : SeqMat ℝ} (h1 : self.mat_type ≠ LO)
    (h2 : self.mat_type ≠ SUBS) :
    entropy self obs = .error .unsupportedOperation := by
  rw [entropy, if_neg h1, if_neg h2]

/-! ## Rounding helpers -/

theorem pyRound_zero (n : ℤ) : pyRound 0 n = 0 := by
  rw [pyRound]
  have h0 : roundHalfAway (0 * 10 ^ n) = 0 := by
    rw [zero_mul, roundHalfAway, if_pos le_rfl]
    norm_num [Int.floor_eq_zero_iff]
  rw [h0]
  simp

theorem pyRound_zero_int (x : ℝ) : ∃ z : ℤ, pyRound x 0 = (z : ℝ) := by
  refine ⟨roundHalfAway (x * 10 ^ (0 : ℤ)), ?_⟩
  rw [pyRound]
  norm_num

/-! ## The claims -/

/-- **C2.** For every constructed `HalfMatrix` (a `SeqMat` satisfying the
invariant `HalfWF` that construction establishes) and every pair of symbols
`a, b` of its alphabet, the cell lookup at `(a,b)` (as performed by
`print_mat`: key order first, mirrored order on `KeyError`) succeeds and
returns the same value as the lookup at `(b,a)`, and exactly one physical
cell backs the unordered pair `{a,b}`. -/
theorem claim_C2 {V : Type} (m : SeqMat V) (hwf : HalfWF m) (a b : Char)
    (ha : a ∈ m.letters) (hb : b ∈ m.letters) :
    (getSym m a b).isSome = true ∧ getSym m a b = getSym m b a ∧
    (keysOf m.data).countP (fun k => decide (k = (a, b) ∨ k = (b, a))) = 1 := by
  have ha' : a ∈ m.ab_list := (hwf.mem_ab_iff a).mpr ha
  have hb' : b ∈ m.ab_list := (hwf.mem_ab_iff b).mpr hb
  have hcount := (halfWF_canonKeys hwf).2.1 a ha b hb
  rcases le_or_lt a b with hab | hab
  · have hmem : (a, b) ∈ keysOf m.data :=
      (hwf.mem_keys (a, b)).mpr ⟨ha', hb', hab⟩
    obtain ⟨v, hv⟩ := lookupK_isSome_of_mem hmem
    have hga : getSym m a b = some v := by
      simp only [getSym, hv]
    rcases eq_or_lt_of_le hab with heq | hlt
    · subst heq
      exact ⟨by rw [hga]; rfl, rfl, hcount⟩
    · have hrev : (b, a) ∉ keysOf m.data := by
        intro hc
        exact absurd ((hwf.mem_keys (b, a)).mp hc).2.2 (not_le.mpr hlt)
      have hnone : lookupK m.data (b, a) = none :=
        (lookupK_eq_none_iff _ _).mpr hrev
      have hgb : getSym m b a = some v := by
        simp only [getSym, hnone, hv]
      exact ⟨by rw [hga]; rfl, hga.trans hgb.symm, hcount⟩
  · have hmem : (b, a) ∈ keysOf m.data :=
      (hwf.mem_keys (b, a)).mpr ⟨hb', ha', le_of_lt hab⟩
    obtain ⟨v, hv⟩ := lookupK_isSome_of_mem hmem
    have hrev : (a, b) ∉ keysOf m.data := by
      intro hc
      exact absurd ((hwf.mem_keys (a, b)).mp hc).2.2 (not_le.mpr hab)
    have hnone : lookupK m.data (a, b) = none :=
      (lookupK_eq_none_iff _ _).mpr hrev
    have hga : getSym m a b = some v := by
      simp only [getSym, hnone, hv]
    have hgb : getSym m b a = some v := by
      simp only [getSym, hv]
    exact ⟨by rw [hga]; rfl, hga.trans hgb.symm, hcount⟩

/-- Witness for C2 at a concrete matrix over `{A, C}`. -/
theorem claim_C2_witness :
    (HalfWF mC2 ∧ 'A' ∈ mC2.letters ∧ 'C' ∈ mC2.letters) ∧
    ((getSym mC2 'A' 'C').isSome = true ∧
      getSym mC2 'A' 'C' = getSym mC2 'C' 'A' ∧
      (keysOf mC2.data).countP
        (fun k => decide (k = ('A', 'C') ∨ k = ('C', 'A'))) = 1) :=
  ⟨⟨by unfold HalfWF; decide, by decide, by decide⟩,
    claim_C2 mC2 (by unfold HalfWF; decide) 'A' 'C' (by decide) (by decide)⟩

/-- **C3.** `_full_to_half` is a no-op on a dict that already has
`N*(N+1)/2` entries.  On a full matrix it stores, for every pair `(i,j)`
with `i` strictly preceding `j` in sorted alphabet order, the sum
`full[(i,j)] + full[(j,i)]` under the sorted key while deleting the
reverse-order key `(j,i)`; every diagonal entry is unchanged; and folding
the result again yields the same dict. -/
theorem claim_C3 {V : Type} [Add V] :
    (∀ (d : List (Pair × V)) (letters ab : List Char),
      d.length = letters.length * (letters.length + 1) / 2 →
      fullToHalfData d letters ab = .ok d) ∧
    (∀ (d : List (Pair × V)) (letters : List Char), letters.Nodup →
      FullData d letters →
      ∃ d1, fullToHalfData d letters (pySorted letters) = .ok d1 ∧
        (∀ i j, i ∈ letters → j ∈ letters → i < j → ∀ vij vji,
          lookupK d (i, j) = some vij → lookupK d (j, i) = some vji →
          lookupK d1 (i, j) = some (vij + vji)) ∧
        (∀ i j, i ∈ letters → j ∈ letters → i < j →
          lookupK d1 (j, i) = none) ∧
        (∀ a : Char, lookupK d1 (a, a) = lookupK d (a, a)) ∧
        fullToHalfData d1 letters (pySorted letters) = .ok d1) := by
  constructor
  · intro d letters ab h
    rw [fullToHalfData, if_pos h]
  · intro d letters hl hf
    obtain ⟨d1, h1, h2, h3, h4, _, _, h7⟩ := full_to_half_spec hl hf
    exact ⟨d1, h1, h2, h3, h4, h7⟩

/-- Witness for C3: the no-op part on a half-sized dict and the folding
part on a concrete full matrix over `{A, C}`. -/
theorem claim_C3_witness :
    (dHalfW.length =
        (['A', 'C'] : List Char).length *
          ((['A', 'C'] : List Char).length + 1) / 2 ∧
      fullToHalfData dHalfW ['A', 'C'] ['A', 'C'] = .ok dHalfW) ∧
    ((['A', 'C'] : List Char).Nodup ∧ FullData dFullW ['A', 'C'] ∧
      ∃ d1, fullToHalfData dFullW ['A', 'C'] (pySorted ['A', 'C']) = .ok d1 ∧
        (∀ i j, i ∈ (['A', 'C'] : List Char) →
          j ∈ (['A', 'C'] : List Char) → i < j → ∀ vij vji,
          lookupK dFullW (i, j) = some vij → lookupK dFullW (j, i) = some vji →
          lookupK d1 (i, j) = some (vij + vji)) ∧
        (∀ i j, i ∈ (['A', 'C'] : List Char) →
          j ∈ (['A', 'C'] : List Char) → i < j →
          lookupK d1 (j, i) = none) ∧
        (∀ a : Char, lookupK d1 (a, a) = lookupK dFullW (a, a)) ∧
        fullToHalfData d1 ['A', 'C'] (pySorted ['A', 'C']) = .ok d1) :=
  ⟨⟨by decide, claim_C3.1 dHalfW ['A', 'C'] ['A', 'C'] (by decide)⟩,
    ⟨by decide, by unfold FullData; decide,
      claim_C3.2 dFullW ['A', 'C'] (by decide) (by unfold FullData; decide)⟩⟩

/-- **C5 (amended).** The observed-frequency stage fails with the
zero-division error (the spec's `DegenerateInputError`) whenever the total
of the accepted-replacement matrix is zero *and the matrix has at least one
entry* — the empty matrix with zero total returns an (empty) result instead
(see `claim_C5_counterexample`). -/
theorem claim_C5 {V : Type} [Field V] [DecidableEq V] (arm : SeqMat V)
    (hs : sumValues arm.data = 0) (hne : arm.data ≠ []) :
    buildObsFreqMat arm = .error .zeroDivision :=
  buildObsFreq_zero_err hs hne

/-- Counterexample to C5 as stated: the empty accepted-replacement matrix
(constructible as `SeqMat()`) has total zero, yet `_build_obs_freq_mat`
returns a result matrix and raises nothing. -/
theorem claim_C5_counterexample :
    sumValues emptyArm.data = 0 ∧
    buildObsFreqMat emptyArm =
      .ok { data := [], letters := [], ab_list := [], mat_type := OBSFREQ } := by
  constructor
  · rfl
  · have hz : seqMatZero ℚ emptyArm.letters =
        { data := [], letters := [], ab_list := [], mat_type := NOTYPE } := by
      have h1 := seqMatZero_letters (V := ℚ) [] NOTYPE
      have h2 := seqMatZero_ab (V := ℚ) [] NOTYPE
      have h3 := seqMatZero_data (V := ℚ) [] NOTYPE
      have h4 := seqMatZero_mat_type (V := ℚ) [] NOTYPE
      have hd : initZero ([] : List (Pair × ℚ)) (pySorted []) = [] := by
        rw [pySorted_nil]
        rfl
      cases hm : seqMatZero ℚ [] NOTYPE
      simp only [hm] at h1 h2 h3 h4
      rw [hd] at h3
      simp_all [emptyArm, pySorted_nil]
    simp only [buildObsFreqMat, emptyArm]
    rw [show (seqMatZero ℚ [] : SeqMat ℚ) =
      { data := [], letters := [], ab_list := [], mat_type := NOTYPE } from hz]
    rw [storeLoop_nil, bind_ok_red]
    rfl

/-- Witness for the amended C5: a one-cell matrix with count `0` has total
zero and makes the stage raise the zero-division error. -/
theorem claim_C5_witness :
    (sumValues armZ.data = 0 ∧ armZ.data ≠ []) ∧
    buildObsFreqMat armZ = .error .zeroDivision :=
  ⟨⟨by simp [sumValues, armZ], by simp [armZ]⟩,
    claim_C5 armZ (by simp [sumValues, armZ]) (by simp [armZ])⟩

/-- **C7.** The substitution-ratio stage fails with the alphabet-mismatch
error exactly when the two sorted alphabet lists differ as lists; when they
are equal (and the expected matrix covers the observed keys with nonzero
values) it returns a new `SUBS`-kind matrix with
`output[pair] = observed[pair] / expected[pair]` for every key of the
observed matrix. -/
theorem claim_C7 {V : Type} [Field V] [DecidableEq V] (o em : SeqMat V) :
    (o.ab_list ≠ em.ab_list →
      buildSubsMat o em = .error .alphabetMismatch) ∧
    (o.ab_list = em.ab_list → HalfWF o →
      (∀ k ∈ keysOf o.data, ∃ v, lookupK em.data k = some v ∧ v ≠ 0) →
      ∃ s, buildSubsMat o em = .ok s ∧ s.mat_type = SUBS ∧
        ∀ k vo ve, lookupK o.data k = some vo →
          lookupK em.data k = some ve →
          lookupK s.data k = some (vo / ve)) := by
  constructor
  · exact buildSubsMat_mismatch
  · intro heq hwfo hcov
    obtain ⟨s, h1, _, _, h4, _, h6⟩ := buildSubsMat_spec hwfo heq hcov
    exact ⟨s, h1, h4, h6⟩

/-- Witness for C7: matrices over `[A,C]` and `[A,C,G]` are rejected, and
the stage divides cell-wise on a matching concrete pair. -/
theorem claim_C7_witness :
    ((oW.ab_list ≠ emW3.ab_list) ∧
      buildSubsMat oW emW3 = .error .alphabetMismatch) ∧
    (oW.ab_list = emW.ab_list ∧
      ∃ s, buildSubsMat oW emW = .ok s ∧ s.mat_type = SUBS ∧
        ∀ k vo ve, lookupK oW.data k = some vo →
          lookupK emW.data k = some ve →
          lookupK s.data k = some (vo / ve)) := by
  refine ⟨⟨by decide, (claim_C7 oW emW3).1 (by decide)⟩,
    ⟨by decide, ?_⟩⟩
  refine (claim_C7 oW emW).2 (by decide) (by unfold HalfWF; decide) ?_
  intro k hk
  simp only [oW, keysOf, List.map_cons, List.map_nil, List.mem_cons,
    List.not_mem_nil, or_false] at hk
  rcases hk with rfl | rfl | rfl
  · exact ⟨1/4, rfl, by norm_num⟩
  · exact ⟨1/2, rfl, by norm_num⟩
  · exact ⟨1/4, rfl, by norm_num⟩

/-- **C8.** `entropy` is defined only for `SUBS`- and `LO`-kind matrices and
fails with the unsupported-operation error on any other kind — in
particular on an `OBSFREQ`-kind matrix.  For `LO` it returns
`Σ F[pair]*self[pair]/log 2` over the half-matrix keys, and for `SUBS`
`Σ F[pair]*log(self[pair])/log 2`, where `F` is the companion
observed-frequency matrix. -/
theorem claim_C8 (self obs : SeqMat ℝ) :
    (self.mat_type ≠ SUBS → self.mat_type ≠ LO →
      entropy self obs = .error .unsupportedOperation) ∧
    (self.mat_type = OBSFREQ →
      entropy self obs = .error .unsupportedOperation) ∧
    (self.mat_type = LO → ∀ FF : Pair → ℝ,
      (∀ e ∈ self.data, lookupK obs.data e.1 = some (FF e.1)) →
      entropy self obs =
        .ok ((self.data.map (fun e => FF e.1 * e.2 / Real.log 2)).sum)) ∧
    (self.mat_type = SUBS → ∀ FF : Pair → ℝ,
      (∀ e ∈ self.data, lookupK obs.data e.1 = some (FF e.1)) →
      (∀ e ∈ self.data, 0 < e.2) →
      entropy self obs =
        .ok ((self.data.map
          (fun e => FF e.1 * Real.log e.2 / Real.log 2)).sum)) := by
  refine ⟨fun h1 h2 => entropy_gate h2 h1, ?_, ?_, ?_⟩
  · intro h
    refine entropy_gate ?_ ?_ <;> rw [h] <;> decide
  · intro h FF hcov
    exact entropy_LO h FF hcov
  · intro h FF hcov hpos
    refine entropy_SUBS h ?_ FF hcov hpos
    rw [h]
    decide

/-- Witness for C8: entropy on a concrete `OBSFREQ`-kind matrix fails with
the unsupported-operation error. -/
theorem claim_C8_witness :
    selfOF.mat_type = OBSFREQ ∧
    entropy selfOF obsDummy = .error .unsupportedOperation :=
  ⟨rfl, (claim_C8 selfOF obsDummy).2.1 rfl⟩

/-- **C10.** `make_log_odds_matrix` treats a supplied-but-empty expected
frequency table (falsy in Python) exactly like an omitted one: both derive
the table from the observed-frequency matrix. -/
theorem claim_C10 (arm : SeqMat ℝ) (t : FreqTable ℝ) (ht : t.data = [])
    (logbase factor : ℝ) (rd : ℤ) :
    make_log_odds_matrix arm (some t) logbase factor rd =
      make_log_odds_matrix arm none logbase factor rd := by
  simp only [make_log_odds_matrix, ht]
  rfl

/-- Witness for C10 at a concrete matrix and the empty table. -/
theorem claim_C10_witness :
    (FreqTable.data { data := [], letters := [] } = ([] : List (Char × ℝ))) ∧
    make_log_odds_matrix selfOF (some { data := [], letters := [] }) 10 10 0 =
      make_log_odds_matrix selfOF none 10 10 0 :=
  ⟨rfl, claim_C10 selfOF { data := [], letters := [] } rfl 10 10 0⟩

theorem sumValues_eq' {W : Type} [Field W] (d : List (Pair × W)) :
    sumValues d = (d.map (fun e => e.2)).sum :=
  sumValues_eq d


/-- **C4.** For every well-formed accepted-replacement matrix whose values
have a nonzero total, the observed-frequency stage returns a new matrix
with the same alphabet and the same keys in which every value is
`input[pair] / total`, and the values sum to exactly `1` (hence within
`1e-9` of `1`). -/
theorem claim_C4 {V : Type} [LinearOrderedField V] {arm : SeqMat V}
    (hwf : HalfWF arm) (hs : sumValues arm.data ≠ 0) :
    ∃ obs, buildObsFreqMat arm = .ok obs ∧
      obs.letters = arm.letters ∧ obs.mat_type = OBSFREQ ∧
      (keysOf obs.data).Perm (keysOf arm.data) ∧
      (∀ k v, lookupK arm.data k = some v →
        lookupK obs.data k = some (v / sumValues arm.data)) ∧
      sumValues obs.data = 1 ∧
      |sumValues obs.data - 1| ≤ 1 / 1000000000 := by
  obtain ⟨obs, hok, hlet, habl, hmt, hwfo, hlook, hperm⟩ :=
    buildObsFreq_spec hwf hs
  have hkeysperm : (keysOf obs.data).Perm (keysOf arm.data) := by
    refine (hwfo.2.2.2.trans ?_).trans hwf.2.2.2.symm
    rw [habl]
  have hsum : sumValues obs.data = 1 := by
    rw [sumValues_eq']
    rw [(hperm.map (fun e => e.2)).sum_eq, List.map_map]
    have hcomp : ((fun e : Pair × V => e.2) ∘
        (fun e : Pair × V => (e.1, e.2 / sumValues arm.data)))
        = fun e : Pair × V => e.2 / sumValues arm.data := rfl
    rw [hcomp]
    simp only [div_eq_mul_inv]
    rw [List.sum_map_mul_right, ← sumValues_eq', mul_inv_cancel₀ hs]
  refine ⟨obs, hok, hlet, hmt, hkeysperm, hlook, hsum, ?_⟩
  rw [hsum]
  norm_num

/-- Witness for C4 on the concrete example matrix over `{A, C}`. -/
theorem claim_C4_witness :
    (HalfWF armWQ ∧ sumValues armWQ.data ≠ 0) ∧
    (∃ obs, buildObsFreqMat armWQ = .ok obs ∧
      obs.letters = armWQ.letters ∧ obs.mat_type = OBSFREQ ∧
      (keysOf obs.data).Perm (keysOf armWQ.data) ∧
      (∀ k v, lookupK armWQ.data k = some v →
        lookupK obs.data k = some (v / sumValues armWQ.data)) ∧
      sumValues obs.data = 1 ∧
      |sumValues obs.data - 1| ≤ 1 / 1000000000) :=
  ⟨⟨by unfold HalfWF; decide, by norm_num [sumValues, armWQ]⟩,
    claim_C4 (by unfold HalfWF; decide) (by norm_num [sumValues, armWQ])⟩

/-- **C6.** The log-odds stage maps every entry of the substitution-ratio
matrix to `round(factor * log(subs[pair]) / log(logbase), round_digit)`
(Python's `round`, half away from zero); the defaults are `logbase=10`,
`factor=10.0` and `round_digit=0`, and `round_digit = 0` means rounding to
the nearest integer — a digit count, not a boolean toggle. -/
theorem claim_C6 (subs : SeqMat ℝ) (logbase factor : ℝ) (rd : ℤ)
    (hwf : HalfWF subs) (hpos : ∀ e ∈ subs.data, 0 < e.2)
    (hlb : 0 < logbase) (hlb1 : logbase ≠ 1) :
    (∃ lo, buildLogOddsMat subs logbase factor rd = .ok lo ∧
      lo.mat_type = LO ∧
      ∀ k v, lookupK subs.data k = some v → lookupK lo.data k =
        some (pyRound (factor * Real.log v / Real.log logbase) rd)) ∧
    buildLogOddsMat subs = buildLogOddsMat subs 10 10.0 0 ∧
    (∀ x : ℝ, ∃ z : ℤ, pyRound x 0 = (z : ℝ)) := by
  refine ⟨?_, rfl, pyRound_zero_int⟩
  obtain ⟨lo, hok, _, _, hmt, _, hlook⟩ :=
    buildLogOdds_spec hwf logbase factor rd hpos hlb hlb1
  exact ⟨lo, hok, hmt, hlook⟩

/-- Witness for C6 on a one-cell substitution matrix with default
parameters. -/
theorem claim_C6_witness :
    (HalfWF subsW ∧ (∀ e ∈ subsW.data, 0 < e.2) ∧ (0:ℝ) < 10 ∧ (10:ℝ) ≠ 1) ∧
    ((∃ lo, buildLogOddsMat subsW 10 10.0 0 = .ok lo ∧
      lo.mat_type = LO ∧
      ∀ k v, lookupK subsW.data k = some v → lookupK lo.data k =
        some (pyRound (10.0 * Real.log v / Real.log 10) 0)) ∧
    buildLogOddsMat subsW = buildLogOddsMat subsW 10 10.0 0 ∧
    (∀ x : ℝ, ∃ z : ℤ, pyRound x 0 = (z : ℝ))) := by
  have hpos : ∀ e ∈ subsW.data, 0 < e.2 := by
    intro e he
    simp only [subsW, List.mem_singleton] at he
    subst he
    norm_num
  exact ⟨⟨by unfold HalfWF; decide, hpos, by norm_num, by norm_num⟩,
    claim_C6 subsW 10 10.0 0 (by unfold HalfWF; decide) hpos
      (by norm_num) (by norm_num)⟩

/-! ## Stage outputs are well-formed (C9 infrastructure) -/

theorem map_ok_red {ε α β : Type} (a : α) (f : α → β) :
    (Except.ok a : Except ε α).map f = .ok (f a) := rfl

theorem seqMatZero_nil {V : Type} [Zero V] (mt : Nat) :
    seqMatZero V [] mt =
      { data := [], letters := [], ab_list := [], mat_type := mt } := by
  have heta : seqMatZero V [] mt =
      ⟨(seqMatZero V [] mt).data, (seqMatZero V [] mt).letters,
        (seqMatZero V [] mt).ab_list, (seqMatZero V [] mt).mat_type⟩ := rfl
  rw [heta, seqMatZero_data, seqMatZero_letters, seqMatZero_ab,
    seqMatZero_mat_type, pySorted_nil]
  rfl

/-- `_build_obs_freq_mat` on the empty matrix: total is zero, yet the stage
returns an (empty) observed-frequency matrix. -/
theorem buildObsFreq_empty :
    buildObsFreqMat emptyArm =
      .ok { data := [], letters := [], ab_list := [],
            mat_type := OBSFREQ } := by
  simp only [buildObsFreqMat, emptyArm]
  rw [seqMatZero_nil, storeLoop_nil, bind_ok_red]
  rfl

theorem obs_ok_wf {V : Type} [Field V] [DecidableEq V] {arm obs : SeqMat V}
    (hwf : HalfWF arm) (hok : buildObsFreqMat arm = .ok obs) : HalfWF obs := by
  have hab : pySorted arm.letters = arm.ab_list := hwf.ab_eq_pySorted
  have hsort : arm.ab_list.Sorted (· < ·) := hwf.2.1
  have hkeys0 : keysOf (seqMatZero V arm.letters).data
      = pairsList arm.ab_list := by
    rw [seqMatZero_data, hab, (initZero_spec hsort).1]
  simp only [buildObsFreqMat] at hok
  cases hsl : storeLoop Prod.fst (fun e => pyDiv e.2 (sumValues arm.data))
      (seqMatZero V arm.letters).data arm.data with
  | error err =>
      rw [hsl, bind_err_red] at hok
      cases hok
  | ok d1 =>
      rw [hsl, bind_ok_red] at hok
      have hok' : Except.ok { seqMatZero V arm.letters with
          data := d1, mat_type := OBSFREQ } = Except.ok obs := hok
      have hobs : obs = { seqMatZero V arm.letters with
          data := d1, mat_type := OBSFREQ } := by
        injection hok' with hx
        exact hx.symm
      have hsub : ∀ e ∈ arm.data,
          Prod.fst e ∈ keysOf (seqMatZero V arm.letters).data := by
        intro e he
        rw [hkeys0]
        exact hwf.2.2.2.mem_iff.mp (List.mem_map_of_mem Prod.fst he)
      have hkeys1 : keysOf d1 = pairsList arm.ab_list := by
        rw [storeLoop_keys_of_ok hsl hwf.keys_nodup hsub, hkeys0]
      subst hobs
      refine ⟨?_, ?_, ?_, ?_⟩
      · show (seqMatZero V arm.letters).letters.Nodup
        rw [seqMatZero_letters]
        exact hwf.1
      · show (seqMatZero V arm.letters).ab_list.Sorted (· < ·)
        rw [seqMatZero_ab, hab]
        exact hsort
      · show ((seqMatZero V arm.letters).ab_list).Perm
          ((seqMatZero V arm.letters).letters)
        rw [seqMatZero_ab, hab, seqMatZero_letters]
        exact hwf.2.2.1
      · show (keysOf d1).Perm (pairsList (seqMatZero V arm.letters).ab_list)
        rw [seqMatZero_ab, hab, hkeys1]

theorem exp_ok_wf {V : Type} [Field V] {t : FreqTable V} {m : SeqMat V}
    (hnd : t.letters.Nodup) (hok : buildExpFreqMat t = .ok m) : HalfWF m := by
  have hsort : (pySorted t.letters).Sorted (· < ·) := pySorted_sorted_lt hnd
  have hkeys0 : keysOf (seqMatZero V t.letters).data
      = pairsList (pySorted t.letters) := by
    rw [seqMatZero_data, (initZero_spec hsort).1]
  simp only [buildExpFreqMat] at hok
  cases hsl : storeLoop id
      (fun k =>
        if k.1 = k.2 then do
          let v ← lookupExc t.data k.1
          pure (v ^ 2)
        else do
          let v1 ← lookupExc t.data k.1
          let v2 ← lookupExc t.data k.2
          pure (2 * v1 * v2))
      (seqMatZero V t.letters).data (keysOf (seqMatZero V t.letters).data) with
  | error err =>
      rw [hsl, bind_err_red] at hok
      cases hok
  | ok d1 =>
      rw [hsl, bind_ok_red] at hok
      have hok' : Except.ok { seqMatZero V t.letters with
          data := d1, mat_type := EXPFREQ } = Except.ok m := hok
      have hm : m = { seqMatZero V t.letters with
          data := d1, mat_type := EXPFREQ } := by
        injection hok' with hx
        exact hx.symm
      have hndk : ((keysOf (seqMatZero V t.letters).data).map id).Nodup := by
        rw [List.map_id, hkeys0]
        exact pairsList_nodup hsort
      have hkeys1 : keysOf d1 = pairsList (pySorted t.letters) := by
        rw [storeLoop_keys_of_ok hsl hndk (fun e he => he), hkeys0]
      subst hm
      refine ⟨?_, ?_, ?_, ?_⟩
      · show (seqMatZero V t.letters).letters.Nodup
        rw [seqMatZero_letters]
        exact hnd
      · show (seqMatZero V t.letters).ab_list.Sorted (· < ·)
        rw [seqMatZero_ab]
        exact hsort
      · show ((seqMatZero V t.letters).ab_list).Perm
          ((seqMatZero V t.letters).letters)
        rw [seqMatZero_ab, seqMatZero_letters]
        exact pySorted_perm t.letters
      · show (keysOf d1).Perm (pairsList (seqMatZero V t.letters).ab_list)
        rw [seqMatZero_ab, hkeys1]

theorem subs_ok_wf {V : Type} [Field V] [DecidableEq V] {o em s : SeqMat V}
    (hwfo : HalfWF o) (hok : buildSubsMat o em = .ok s) : HalfWF s := by
  rw [buildSubsMat] at hok
  by_cases hne : o.ab_list ≠ em.ab_list
  · rw [if_pos hne] at hok
    cases hok
  · rw [if_neg hne] at hok
    simp only [seqMatOfData_copy hwfo NOTYPE, bind_ok_red] at hok
    cases hsl : storeLoop Prod.fst
        (fun e => do
          let ev ← lookupExc em.data e.1
          pyDiv e.2 ev) o.data o.data with
    | error err =>
        rw [hsl, bind_err_red] at hok
        cases hok
    | ok d1 =>
        rw [hsl, bind_ok_red] at hok
        have hok' : Except.ok
            { data := d1, letters := o.ab_list, ab_list := o.ab_list,
              mat_type := SUBS } = Except.ok s := hok
        have hs : s = ⟨d1, o.ab_list, o.ab_list, SUBS⟩ := by
          injection hok' with hx
          exact hx.symm
        have hkeys1 : keysOf d1 = keysOf o.data :=
          storeLoop_keys_of_ok hsl hwfo.keys_nodup (fun e he =>
            List.mem_map_of_mem Prod.fst he)
        subst hs
        refine copy_wf hwfo d1 SUBS ?_
        rw [hkeys1]
        exact hwfo.2.2.2

theorem lo_ok_wf {subs lo : SeqMat ℝ} {lb f : ℝ} {rd : ℤ}
    (hwf : HalfWF subs) (hok : buildLogOddsMat subs lb f rd = .ok lo) :
    HalfWF lo := by
  simp only [buildLogOddsMat] at hok
  simp only [seqMatOfData_copy hwf NOTYPE, bind_ok_red] at hok
  cases hsl : storeLoop Prod.fst
      (fun e => do
        let lg ← pyLog e.2
        let lb' ← pyLog lb
        let q ← pyDiv (f * lg) lb'
        pure (pyRound q rd)) subs.data subs.data with
  | error err =>
      rw [hsl, bind_err_red] at hok
      cases hok
  | ok d1 =>
      rw [hsl, bind_ok_red] at hok
      have hok' : Except.ok
          { data := d1, letters := subs.ab_list, ab_list := subs.ab_list,
            mat_type := LO } = Except.ok lo := hok
      have hs : lo = ⟨d1, subs.ab_list, subs.ab_list, LO⟩ := by
        injection hok' with hx
        exact hx.symm
      have hkeys1 : keysOf d1 = keysOf subs.data :=
        storeLoop_keys_of_ok hsl hwf.keys_nodup (fun e he =>
          List.mem_map_of_mem Prod.fst he)
      subst hs
      refine copy_wf hwf d1 LO ?_
      rw [hkeys1]
      exact hwf.2.2.2

theorem seqMatOfData_full_canon {V : Type} [Add V]
    (data : List (Pair × V)) (letters : List Char) (mt : Nat)
    (hl : letters.Nodup) (hf : FullData data letters) :
    ∃ m, seqMatOfData data letters mt = .ok m ∧ CanonKeys m := by
  by_cases hemp : letters = []
  · subst hemp
    have hdata : data = [] := by
      cases data with
      | nil => rfl
      | cons e tl =>
          have := (hf.2.2 e.1
            (List.mem_map_of_mem Prod.fst (List.mem_cons_self e tl))).1
          simp at this
    subst hdata
    refine ⟨{ data := [], letters := [], ab_list := [], mat_type := mt },
      ?_, ?_, ?_, ?_⟩
    · simp only [seqMatOfData, alphabetFromMatrix]
      simp [pySorted_nil, fullToHalfData, map_ok_red]
    · intro k hk
      simp [keysOf] at hk
    · intro a ha
      simp at ha
    · simp
  · obtain ⟨d1, hret, _, _, _, hnd1, hperm1, _⟩ := full_to_half_spec hl hf
    have hie : letters.isEmpty = false := by
      cases letters with
      | nil => exact absurd rfl hemp
      | cons c rest => rfl
    refine ⟨⟨d1, letters, pySorted letters, mt⟩, ?_, ?_⟩
    · simp only [seqMatOfData, hie, Bool.false_eq_true, if_false]
      rw [if_pos (Or.inl (hf.length_sq hl)), hret, map_ok_red]
    · apply halfWF_canonKeys
      exact ⟨hl, pySorted_sorted_lt hl, pySorted_perm letters, hperm1⟩


theorem buildExpFreqMat_ftEmpty :
    buildExpFreqMat ftEmpty =
      .ok { data := [], letters := [], ab_list := [],
            mat_type := EXPFREQ } := by
  simp only [buildExpFreqMat, ftEmpty]
  rw [seqMatZero_nil]
  rw [show keysOf ([] : List (Pair × ℚ)) = [] from rfl, storeLoop_nil,
    bind_ok_red]
  rfl

theorem buildSubsMat_empty :
    buildSubsMat obsEmpty
        { data := [], letters := [], ab_list := [], mat_type := EXPFREQ } =
      .ok { data := [], letters := [], ab_list := [], mat_type := SUBS } := by
  have hwfo : HalfWF obsEmpty := by
    unfold HalfWF
    decide
  rw [buildSubsMat, if_neg (by simp [obsEmpty])]
  simp only [seqMatOfData_copy hwfo NOTYPE, bind_ok_red]
  rw [show obsEmpty.data = ([] : List (Pair × ℚ)) from rfl, storeLoop_nil,
    bind_ok_red]
  rfl

theorem buildLogOdds_empty :
    buildLogOddsMat subsEmptyR 10 10.0 0 =
      .ok { data := [], letters := [], ab_list := [], mat_type := LO } := by
  have hwf : HalfWF subsEmptyR := by
    unfold HalfWF
    decide
  simp only [buildLogOddsMat]
  simp only [seqMatOfData_copy hwf NOTYPE, bind_ok_red]
  rw [show subsEmptyR.data = ([] : List (Pair × ℝ)) from rfl, storeLoop_nil,
    bind_ok_red]
  rfl

/-- **C9.** Every matrix produced by zero-initialised (`build_later`)
construction or by full-to-half folding — hence every matrix produced by a
pipeline stage — has canonical keys: every key `(x,y)` has `x ≤ y` with
both letters in the alphabet, exactly one physical cell backs each
unordered pair of letters, and there are `N*(N+1)/2` cells in total. -/
theorem claim_C9 {V : Type} [Field V] [DecidableEq V] :
    (∀ (letters : List Char) (mt : Nat), letters.Nodup →
      CanonKeys (seqMatZero V letters mt)) ∧
    (∀ (data : List (Pair × V)) (letters : List Char) (mt : Nat),
      letters.Nodup → FullData data letters →
      ∃ m, seqMatOfData data letters mt = .ok m ∧ CanonKeys m) ∧
    (∀ arm obs : SeqMat V, HalfWF arm → buildObsFreqMat arm = .ok obs →
      CanonKeys obs) ∧
    (∀ (t : FreqTable V) (m : SeqMat V), t.letters.Nodup →
      buildExpFreqMat t = .ok m → CanonKeys m) ∧
    (∀ o em s : SeqMat V, HalfWF o → buildSubsMat o em = .ok s →
      CanonKeys s) ∧
    (∀ (subs lo : SeqMat ℝ) (lb f : ℝ) (rd : ℤ), HalfWF subs →
      buildLogOddsMat subs lb f rd = .ok lo → CanonKeys lo) := by
  refine ⟨?_, ?_, ?_, ?_, ?_, ?_⟩
  · intro letters mt hnd
    exact halfWF_canonKeys (seqMatZero_wf hnd mt)
  · intro data letters mt hl hf
    exact seqMatOfData_full_canon data letters mt hl hf
  · intro arm obs hwf hok
    exact halfWF_canonKeys (obs_ok_wf hwf hok)
  · intro t m hnd hok
    exact halfWF_canonKeys (exp_ok_wf hnd hok)
  · intro o em s hwfo hok
    exact halfWF_canonKeys (subs_ok_wf hwfo hok)
  · intro subs lo lb f rd hwf hok
    exact halfWF_canonKeys (lo_ok_wf hwf hok)

/-- Witness for C9: all six parts applied at concrete inputs. -/
theorem claim_C9_witness :
    ((['A', 'C'] : List Char).Nodup ∧
      CanonKeys (seqMatZero ℚ ['A', 'C'] NOTYPE)) ∧
    (FullData dFullW ['A', 'C'] ∧
      ∃ m, seqMatOfData dFullW ['A', 'C'] ACCREP = .ok m ∧ CanonKeys m) ∧
    (HalfWF emptyArm ∧ CanonKeys obsEmpty) ∧
    (ftEmpty.letters.Nodup ∧ CanonKeys
      ({ data := [], letters := [], ab_list := [],
         mat_type := EXPFREQ } : SeqMat ℚ)) ∧
    (HalfWF obsEmpty ∧ CanonKeys
      ({ data := [], letters := [], ab_list := [],
         mat_type := SUBS } : SeqMat ℚ)) ∧
    (HalfWF subsEmptyR ∧ CanonKeys
      ({ data := [], letters := [], ab_list := [],
         mat_type := LO } : SeqMat ℝ)) := by
  refine ⟨⟨by decide, (claim_C9 (V := ℚ)).1 ['A', 'C'] NOTYPE (by decide)⟩,
    ⟨by unfold FullData; decide,
      (claim_C9 (V := ℚ)).2.1 dFullW ['A', 'C'] ACCREP (by decide)
        (by unfold FullData; decide)⟩,
    ⟨by unfold HalfWF; decide,
      (claim_C9 (V := ℚ)).2.2.1 emptyArm obsEmpty (by unfold HalfWF; decide)
        buildObsFreq_empty⟩,
    ⟨by decide,
      (claim_C9 (V := ℚ)).2.2.2.1 ftEmpty _ (by decide) buildExpFreqMat_ftEmpty⟩,
    ⟨by unfold HalfWF; decide,
      (claim_C9 (V := ℚ)).2.2.2.2.1 obsEmpty _ _ (by unfold HalfWF; decide)
        buildSubsMat_empty⟩,
    ⟨by unfold HalfWF; decide,
      (claim_C9 (V := ℚ)).2.2.2.2.2 subsEmptyR _ 10 10.0 0 (by unfold HalfWF; decide)
        buildLogOdds_empty⟩⟩

/-! ## The end-to-end example (C1) -/

theorem pure_ok_red {ε α : Type} (a : α) :
    (pure a : Except ε α) = Except.ok a := rfl

theorem pySorted_AC : pySorted ['A', 'C'] = ['A', 'C'] :=
  pySorted_eq_self (by decide)

theorem mzAC_data : (seqMatZero ℝ ['A', 'C'] NOTYPE).data =
    [(('A', 'A'), (0 : ℝ)), (('A', 'C'), 0), (('C', 'C'), 0)] := by
  rw [seqMatZero_data, pySorted_AC]
  rfl

theorem sum_armC1 : sumValues armC1.data = 40 := by
  norm_num [sumValues, armC1]

theorem stage1_C1 : buildObsFreqMat armC1 = .ok obsC1 := by
  have hd1 : pyDiv (10 : ℝ) 40 = .ok (1 / 4) := by
    rw [pyDiv, if_neg (by norm_num : ¬ (40 : ℝ) = 0)]
    norm_num
  have hd2 : pyDiv (20 : ℝ) 40 = .ok (1 / 2) := by
    rw [pyDiv, if_neg (by norm_num : ¬ (40 : ℝ) = 0)]
    norm_num
  have hF1 : (fun e : Pair × ℝ => pyDiv e.2 (40 : ℝ)) (('A', 'A'), (10 : ℝ))
      = .ok (1 / 4 : ℝ) := hd1
  have hF2 : (fun e : Pair × ℝ => pyDiv e.2 (40 : ℝ)) (('A', 'C'), (20 : ℝ))
      = .ok (1 / 2 : ℝ) := hd2
  have hF3 : (fun e : Pair × ℝ => pyDiv e.2 (40 : ℝ)) (('C', 'C'), (10 : ℝ))
      = .ok (1 / 4 : ℝ) := hd1
  have e1 : buildObsFreqMat armC1 =
      (storeLoop Prod.fst
          (fun e : Pair × ℝ => pyDiv e.2 (sumValues armC1.data))
          (seqMatZero ℝ ['A', 'C'] NOTYPE).data armC1.data) >>=
        (fun d => pure (⟨d, ['A', 'C'], pySorted ['A', 'C'], OBSFREQ⟩
          : SeqMat ℝ)) := rfl
  rw [e1, sum_armC1, mzAC_data,
    show armC1.data
      = [(('A', 'A'), (10 : ℝ)), (('A', 'C'), 20), (('C', 'C'), 10)] from rfl]
  rw [storeLoop_cons_ok (F := fun e : Pair × ℝ => pyDiv e.2 (40 : ℝ))
      (e := ((('A', 'A'), (10 : ℝ)) : Pair × ℝ)) hF1,
    storeLoop_cons_ok (F := fun e : Pair × ℝ => pyDiv e.2 (40 : ℝ))
      (e := ((('A', 'C'), (20 : ℝ)) : Pair × ℝ)) hF2,
    storeLoop_cons_ok (F := fun e : Pair × ℝ => pyDiv e.2 (40 : ℝ))
      (e := ((('C', 'C'), (10 : ℝ)) : Pair × ℝ)) hF3,
    storeLoop_nil, bind_ok_red, pySorted_AC]
  rfl

theorem stage2_C1 : expFreqTableFromObsFreq obsC1 = .ok ftC1 := by
  have e2 : expFreqTableFromObsFreq obsC1 =
      .ok (mkFreqTable [('A', (0 + 1 / 4 + 1 / 2 / 2 : ℝ)),
        ('C', (0 + 1 / 2 / 2 + 1 / 4 : ℝ))]) := rfl
  rw [e2, mkFreqTable,
    show (([('A', (0 + 1 / 4 + 1 / 2 / 2 : ℝ)),
        ('C', (0 + 1 / 2 / 2 + 1 / 4 : ℝ))].map Prod.fst).dedup)
      = ['A', 'C'] from rfl,
    pySorted_AC]
  norm_num [ftC1]

theorem stage3_C1 : buildExpFreqMat ftC1 = .ok expC1 := by
  have hFe1 : (fun k : Pair =>
      if k.1 = k.2 then do
        let v ← lookupExc ftC1.data k.1
        pure (v ^ 2)
      else do
        let v1 ← lookupExc ftC1.data k.1
        let v2 ← lookupExc ftC1.data k.2
        pure (2 * v1 * v2)) ('A', 'A') = .ok ((1 / 2 : ℝ) ^ 2) := rfl
  have hFe2 : (fun k : Pair =>
      if k.1 = k.2 then do
        let v ← lookupExc ftC1.data k.1
        pure (v ^ 2)
      else do
        let v1 ← lookupExc ftC1.data k.1
        let v2 ← lookupExc ftC1.data k.2
        pure (2 * v1 * v2)) ('A', 'C')
      = .ok (2 * (1 / 2 : ℝ) * (1 / 2)) := rfl
  have hFe3 : (fun k : Pair =>
      if k.1 = k.2 then do
        let v ← lookupExc ftC1.data k.1
        pure (v ^ 2)
      else do
        let v1 ← lookupExc ftC1.data k.1
        let v2 ← lookupExc ftC1.data k.2
        pure (2 * v1 * v2)) ('C', 'C') = .ok ((1 / 2 : ℝ) ^ 2) := rfl
  have e3 : buildExpFreqMat ftC1 =
      (storeLoop id
          (fun k : Pair =>
            if k.1 = k.2 then do
              let v ← lookupExc ftC1.data k.1
              pure (v ^ 2)
            else do
              let v1 ← lookupExc ftC1.data k.1
              let v2 ← lookupExc ftC1.data k.2
              pure (2 * v1 * v2))
          (seqMatZero ℝ ['A', 'C'] NOTYPE).data
          (keysOf (seqMatZero ℝ ['A', 'C'] NOTYPE).data)) >>=
        (fun d => pure (⟨d, ['A', 'C'], pySorted ['A', 'C'], EXPFREQ⟩
          : SeqMat ℝ)) := rfl
  rw [e3, mzAC_data,
    show keysOf [(('A', 'A'), (0 : ℝ)), (('A', 'C'), 0), (('C', 'C'), 0)]
      = [('A', 'A'), ('A', 'C'), ('C', 'C')] from rfl]
  rw [storeLoop_cons_ok (F := (fun k : Pair =>
        if k.1 = k.2 then do
          let v ← lookupExc ftC1.data k.1
          pure (v ^ 2)
        else do
          let v1 ← lookupExc ftC1.data k.1
          let v2 ← lookupExc ftC1.data k.2
          pure (2 * v1 * v2)))
      (e := (('A', 'A') : Pair)) hFe1,
    storeLoop_cons_ok (F := (fun k : Pair =>
        if k.1 = k.2 then do
          let v ← lookupExc ftC1.data k.1
          pure (v ^ 2)
        else do
          let v1 ← lookupExc ftC1.data k.1
          let v2 ← lookupExc ftC1.data k.2
          pure (2 * v1 * v2)))
      (e := (('A', 'C') : Pair)) hFe2,
    storeLoop_cons_ok (F := (fun k : Pair =>
        if k.1 = k.2 then do
          let v ← lookupExc ftC1.data k.1
          pure (v ^ 2)
        else do
          let v1 ← lookupExc ftC1.data k.1
          let v2 ← lookupExc ftC1.data k.2
          pure (2 * v1 * v2)))
      (e := (('C', 'C') : Pair)) hFe3,
    storeLoop_nil, bind_ok_red, pySorted_AC]
  show Except.ok (⟨[(('A', 'A'), (1 / 2 : ℝ) ^ 2),
      (('A', 'C'), 2 * (1 / 2 : ℝ) * (1 / 2)),
      (('C', 'C'), (1 / 2 : ℝ) ^ 2)],
      ['A', 'C'], ['A', 'C'], EXPFREQ⟩ : SeqMat ℝ) = .ok expC1
  norm_num [expC1]

theorem wf_obsC1 : HalfWF obsC1 := by
  unfold HalfWF
  decide

theorem stage4_C1 : buildSubsMat obsC1 expC1 = .ok subsC1 := by
  have hq1 : pyDiv (1 / 4 : ℝ) (1 / 4) = .ok 1 := by
    rw [pyDiv, if_neg (by norm_num : ¬ (1 / 4 : ℝ) = 0)]
    norm_num
  have hq2 : pyDiv (1 / 2 : ℝ) (1 / 2) = .ok 1 := by
    rw [pyDiv, if_neg (by norm_num : ¬ (1 / 2 : ℝ) = 0)]
    norm_num
  have hFs1 : (fun e : Pair × ℝ => do
      let ev ← lookupExc expC1.data e.1
      pyDiv e.2 ev) (('A', 'A'), (1 / 4 : ℝ)) = .ok (1 : ℝ) := hq1
  have hFs2 : (fun e : Pair × ℝ => do
      let ev ← lookupExc expC1.data e.1
      pyDiv e.2 ev) (('A', 'C'), (1 / 2 : ℝ)) = .ok (1 : ℝ) := hq2
  have hFs3 : (fun e : Pair × ℝ => do
      let ev ← lookupExc expC1.data e.1
      pyDiv e.2 ev) (('C', 'C'), (1 / 4 : ℝ)) = .ok (1 : ℝ) := hq1
  rw [buildSubsMat,
    if_neg (show ¬ (obsC1.ab_list ≠ expC1.ab_list) from by decide)]
  simp only [seqMatOfData_copy wf_obsC1 NOTYPE, bind_ok_red]
  rw [show obsC1.data
      = [(('A', 'A'), (1 / 4 : ℝ)), (('A', 'C'), 1 / 2), (('C', 'C'), 1 / 4)]
      from rfl]
  rw [storeLoop_cons_ok (F := (fun e : Pair × ℝ => do
        let ev ← lookupExc expC1.data e.1
        pyDiv e.2 ev))
      (e := ((('A', 'A'), (1 / 4 : ℝ)) : Pair × ℝ)) hFs1,
    storeLoop_cons_ok (F := (fun e : Pair × ℝ => do
        let ev ← lookupExc expC1.data e.1
        pyDiv e.2 ev))
      (e := ((('A', 'C'), (1 / 2 : ℝ)) : Pair × ℝ)) hFs2,
    storeLoop_cons_ok (F := (fun e : Pair × ℝ => do
        let ev ← lookupExc expC1.data e.1
        pyDiv e.2 ev))
      (e := ((('C', 'C'), (1 / 4 : ℝ)) : Pair × ℝ)) hFs3,
    storeLoop_nil, bind_ok_red]
  rfl

theorem wf_subsC1 : HalfWF subsC1 := by
  unfold HalfWF
  decide

theorem stage5_C1 : buildLogOddsMat subsC1 10 10.0 0 = .ok loC1 := by
  have hlog1 : pyLog (1 : ℝ) = .ok 0 := by
    rw [pyLog, if_neg (by norm_num : ¬ (1 : ℝ) ≤ 0), Real.log_one]
  have hlog10 : pyLog (10 : ℝ) = .ok (Real.log 10) := by
    rw [pyLog, if_neg (by norm_num : ¬ (10 : ℝ) ≤ 0)]
  have hln10 : Real.log 10 ≠ 0 :=
    log_ne_zero_aux (by norm_num) (by norm_num)
  have hdiv0 : pyDiv ((10.0 : ℝ) * (0 : ℝ)) (Real.log 10) = .ok 0 := by
    rw [pyDiv, if_neg hln10]
    norm_num
  have hstep : (do
      let lg ← pyLog (1 : ℝ)
      let lb ← pyLog (10 : ℝ)
      let q ← pyDiv ((10.0 : ℝ) * lg) lb
      pure (pyRound q 0) : Except SMErr ℝ) = .ok 0 := by
    simp only [hlog1, hlog10, bind_ok_red]
    simp only [hdiv0, bind_ok_red, pyRound_zero, pure_ok_red]
  have hFl1 : (fun e : Pair × ℝ => do
      let lg ← pyLog e.2
      let lb ← pyLog (10 : ℝ)
      let q ← pyDiv ((10.0 : ℝ) * lg) lb
      pure (pyRound q 0)) (('A', 'A'), (1 : ℝ)) = .ok (0 : ℝ) := hstep
  have hFl2 : (fun e : Pair × ℝ => do
      let lg ← pyLog e.2
      let lb ← pyLog (10 : ℝ)
      let q ← pyDiv ((10.0 : ℝ) * lg) lb
      pure (pyRound q 0)) (('A', 'C'), (1 : ℝ)) = .ok (0 : ℝ) := hstep
  have hFl3 : (fun e : Pair × ℝ => do
      let lg ← pyLog e.2
      let lb ← pyLog (10 : ℝ)
      let q ← pyDiv ((10.0 : ℝ) * lg) lb
      pure (pyRound q 0)) (('C', 'C'), (1 : ℝ)) = .ok (0 : ℝ) := hstep
  simp only [buildLogOddsMat]
  simp only [seqMatOfData_copy wf_subsC1 NOTYPE, bind_ok_red]
  rw [show subsC1.data
      = [(('A', 'A'), (1 : ℝ)), (('A', 'C'), 1), (('C', 'C'), 1)] from rfl]
  rw [storeLoop_cons_ok (F := (fun e : Pair × ℝ => do
        let lg ← pyLog e.2
        let lb ← pyLog (10 : ℝ)
        let q ← pyDiv ((10.0 : ℝ) * lg) lb
        pure (pyRound q 0)))
      (e := ((('A', 'A'), (1 : ℝ)) : Pair × ℝ)) hFl1,
    storeLoop_cons_ok (F := (fun e : Pair × ℝ => do
        let lg ← pyLog e.2
        let lb ← pyLog (10 : ℝ)
        let q ← pyDiv ((10.0 : ℝ) * lg) lb
        pure (pyRound q 0)))
      (e := ((('A', 'C'), (1 : ℝ)) : Pair × ℝ)) hFl2,
    storeLoop_cons_ok (F := (fun e : Pair × ℝ => do
        let lg ← pyLog e.2
        let lb ← pyLog (10 : ℝ)
        let q ← pyDiv ((10.0 : ℝ) * lg) lb
        pure (pyRound q 0)))
      (e := ((('C', 'C'), (1 : ℝ)) : Pair × ℝ)) hFl3,
    storeLoop_nil, bind_ok_red]
  rfl

/-- **C1.** On the accepted-replacement half matrix `{A,A}:10, {C,C}:10,
`{A,C}:20` over alphabet `{A,C}`, `make_log_odds_matrix` with no expected
frequency table and default parameters (`logbase=10`, `factor=10.0`,
`round_digit=0`) returns a `LO`-kind matrix whose cells `{A,A}`, `{C,C}`
and `{A,C}` all equal `0`. -/
theorem claim_C1 :
    make_log_odds_matrix armC1 = .ok loC1 ∧
    getSym loC1 'A' 'A' = some 0 ∧
    getSym loC1 'C' 'C' = some 0 ∧
    getSym loC1 'A' 'C' = some 0 ∧
    getSym loC1 'C' 'A' = some 0 ∧
    loC1.mat_type = LO := by
  refine ⟨?_, rfl, rfl, rfl, rfl, rfl⟩
  have e0 : make_log_odds_matrix armC1 =
      (buildObsFreqMat armC1 >>= fun obs =>
        expFreqTableFromObsFreq obs >>= fun eft =>
          buildExpFreqMat eft >>= fun em =>
            buildSubsMat obs em >>= fun sm =>
              buildLogOddsMat sm 10 10.0 0) := rfl
  rw [e0]
  simp only [stage1_C1, bind_ok_red]
  simp only [stage2_C1, bind_ok_red]
  simp only [stage3_C1, bind_ok_red]
  simp only [stage4_C1, bind_ok_red]
  exact stage5_C1

end SubsMat
